import Mathlib

set_option autoImplicit false

/-!
Shallow embedding of the go2bad rename engine, translated from the Go
sources, together with theorems settling the claims about it.

Conventions used throughout:
* Go strings are modelled as `List Char` (`GoStr`).  Go indexes bytes;
  every input exercised here is ASCII, where bytes and characters agree.
* `token.Pos` is modelled as `Nat`, with `0` playing `token.NoPos`.
* Go `panic` is modelled by an `Option` result (`none` = panic).
* Go maps are modelled extensionally as total functions returning the Go
  zero value (or an `Option`) for missing keys; Go map iteration order
  never matters for the functions embedded here.
-/

namespace Go2Bad

/-! ## Part 1: package paths (main.go: internalPos, isInternalPackage, canImport) -/

/-- Go strings, modelled as character lists. -/
abbrev GoStr := List Char

/-- Model of `strings.HasSuffix s suffix`. -/
def stringsHasSuffix (s suffix : GoStr) : Bool := suffix.isSuffixOf s

/-- Model of `strings.HasPrefix s pre` (Lean-style name to match `String.startsWith`). -/
def startsWith (s pre : GoStr) : Bool := pre.isPrefixOf s

/-- Model of `strings.LastIndex s sub`: index of the last occurrence of `sub`
in `s`, or `-1` when `sub` does not occur. -/
def stringsLastIndex (s sub : GoStr) : Int :=
  match (List.range (s.length + 1)).reverse.find? (fun i => sub.isPrefixOf (s.drop i)) with
  | some i => (i : Int)
  | none => -1

/-- `internalPos` from main.go:

```go
func internalPos(pkgPath string) int {
    // starting with path element "internal" is not an internal package
    if strings.HasSuffix(pkgPath, "/internal") {
        return len(pkgPath) - len("/internal")
    }
    return strings.LastIndex(pkgPath, "/internal/")
}
``` -/
def internalPos (pkgPath : GoStr) : Int :=
  if stringsHasSuffix pkgPath "/internal".data then
    (pkgPath.length : Int) - ("/internal".data.length : Int)
  else
    stringsLastIndex pkgPath "/internal/".data

/-- `isInternalPackage` from main.go: `internalPos(pkgPath) > 0`. -/
def isInternalPackage (pkgPath : GoStr) : Bool :=
  decide (0 < internalPos pkgPath)

/-- `canImport` from main.go; `none` models the `panic("not an internal package")`.

```go
func canImport(internalPkg, pkg string) bool {
    pi := internalPos(internalPkg)
    if pi <= 0 {
        panic("not an internal package")
    }
    if !strings.HasSuffix(pkg, "/") {
        pkg += "/"
    }
    parent := internalPkg[:pi+1]
    return strings.HasPrefix(pkg, parent)
}
``` -/
def canImport (internalPkg pkg : GoStr) : Option Bool :=
  let pi := internalPos internalPkg
  if pi ≤ 0 then none
  else
    let pkg' := if stringsHasSuffix pkg ['/'] then pkg else pkg ++ ['/']
    let parent := internalPkg.take (pi.toNat + 1)
    some (startsWith pkg' parent)

/-- Spec-side characterization of internal-ness, written from the amended C5
claim: the path ends with the path element `internal` preceded by a nonempty
parent, or (otherwise) the last occurrence of `/internal/` begins at a
positive index. -/
def isInternalSpec (p : GoStr) : Bool :=
  (stringsHasSuffix p "/internal".data && decide ("/internal".data.length < p.length)) ||
  (!stringsHasSuffix p "/internal".data && decide (0 < stringsLastIndex p "/internal/".data))

/-- When `internalPos` is positive it points at the `'/'` opening the
`/internal` path element. -/
theorem internalPos_drop (p : GoStr) (h : 0 < internalPos p) :
    ∃ rest, p.drop (internalPos p).toNat = '/' :: rest := by
  by_cases hs : stringsHasSuffix p "/internal".data
  · obtain ⟨t, ht⟩ := List.isSuffixOf_iff_suffix.mp hs
    have h9 : "/internal".data.length = 9 := rfl
    have hpos : internalPos p = (p.length : Int) - 9 := by
      unfold internalPos
      rw [if_pos hs, h9]
      norm_num
    have hlen : p.length = t.length + 9 := by
      rw [← ht, List.length_append, h9]
    have htoNat : (internalPos p).toNat = t.length := by
      rw [hpos]; omega
    refine ⟨"internal".data, ?_⟩
    rw [htoNat, ← ht]
    have hd : "/internal".data = '/' :: "internal".data := rfl
    rw [hd]
    exact List.drop_left t _
  · have hpos : internalPos p = stringsLastIndex p "/internal/".data := by
      unfold internalPos
      rw [if_neg hs]
    rw [hpos] at h ⊢
    unfold stringsLastIndex at h ⊢
    cases hf : (List.range (p.length + 1)).reverse.find?
        (fun i => "/internal/".data.isPrefixOf (p.drop i)) with
    | none =>
      rw [hf] at h
      exact absurd h (by decide)
    | some i =>
      rw [hf] at h
      have hpred : "/internal/".data.isPrefixOf (p.drop i) = true := by
        simpa using List.find?_some hf
      obtain ⟨r, hr⟩ := List.isPrefixOf_iff_prefix.mp hpred
      refine ⟨"internal/".data ++ r, ?_⟩
      show p.drop i = '/' :: ("internal/".data ++ r)
      rw [← hr]
      rfl

/-- `internalPkg[:pi+1]` is the parent path together with its trailing slash. -/
theorem internalPos_take_succ (p : GoStr) (h : 0 < internalPos p) :
    p.take ((internalPos p).toNat + 1) = p.take (internalPos p).toNat ++ ['/'] := by
  obtain ⟨rest, hrest⟩ := internalPos_drop p h
  have hget : p[(internalPos p).toNat]? = some '/' := by
    have hx := List.getElem?_drop p (internalPos p).toNat 0
    rw [hrest] at hx
    simpa using hx.symm
  rw [List.take_succ, hget]
  rfl

/-- C5 counterexample: contrary to the claim, the one-element path
`internal` is not reported as internal (its `internalPos` is negative, and
the code comment and `Test_internalPos` both demand `false` here). -/
theorem isInternalPackage_one_element_refuted :
    isInternalPackage "internal".data = false := by decide

/-- C5 (amended): `isInternalPackage p` is true exactly when `p` ends with
the path element `internal` preceded by a nonempty parent prefix, or, when
it does not end so, the last occurrence of `/internal/` in `p` starts at a
positive index; in particular the one-element path `internal` is not
internal. -/
theorem isInternalPackage_characterization (p : GoStr) :
    isInternalPackage p = isInternalSpec p := by
  unfold isInternalPackage isInternalSpec internalPos
  by_cases h : stringsHasSuffix p "/internal".data
  · rw [if_pos h]
    simp only [h, Bool.true_and, Bool.not_true, Bool.false_and, Bool.or_false]
    rw [decide_eq_decide]
    omega
  · rw [if_neg h]
    simp only [eq_false_of_ne_true h, Bool.false_and, Bool.not_false, Bool.true_and,
      Bool.false_or]

/-- C7 counterexample: with the internal path `a//internal` (so the parent
prefix before the internal element is `a/`) and target `a/`, the
precondition holds and the claim's characterization — `pkg` with `"/"`
appended starts with parent plus `"/"` — is true, yet `canImport` returns
`false`, because the code appends `"/"` only when `pkg` does not already
end with it. -/
theorem canImport_append_slash_refuted :
    0 < internalPos "a//internal".data ∧
    startsWith ("a/".data ++ ['/'])
      ("a//internal".data.take (internalPos "a//internal".data).toNat ++ ['/']) = true ∧
    canImport "a//internal".data "a/".data = some false := by decide

/-- C7 (amended): when `internalPos internalPkg > 0`, `canImport` does not
panic and returns true iff `pkg` — with `"/"` appended when it does not
already end with `"/"` — starts with the parent prefix ending immediately
before the internal path element followed by `"/"`; when the precondition
fails, `canImport` panics. -/
theorem canImport_characterization (ipkg pkg : GoStr) :
    (0 < internalPos ipkg →
      canImport ipkg pkg =
        some (startsWith (if stringsHasSuffix pkg ['/'] then pkg else pkg ++ ['/'])
          (ipkg.take (internalPos ipkg).toNat ++ ['/']))) ∧
    (internalPos ipkg ≤ 0 → canImport ipkg pkg = none) := by
  constructor
  · intro h
    unfold canImport
    have hnle : ¬ internalPos ipkg ≤ 0 := by omega
    rw [if_neg hnle, internalPos_take_succ ipkg h]
  · intro h
    unfold canImport
    rw [if_pos h]

/-- Witness for `canImport_characterization` at a concrete import pair. -/
theorem canImport_characterization_witness :
    canImport "a/b/internal".data "a/b/c".data = some true := by
  have h := (canImport_characterization "a/b/internal".data "a/b/c".data).1 (by decide)
  rw [h]
  decide

/-! ## Part 2: the scope graph (scope.go: multiMap, useMap.Rename, renameChildren) -/

/-- `token.Pos`; `0` models `token.NoPos`. -/
abbrev Pos := Nat

/-- `defUsePos` from scope.go: definition and usage positions of a name. -/
structure DefUsePos where
  defPos : Pos
  usePos : Pos
  deriving DecidableEq, Repr

/-- A Go map `map[string]token.Pos` is modelled extensionally: lookup of a
missing key yields the zero position `0` (`token.NoPos`), exactly as in Go. -/
abbrev DefTable := String → Pos

/-- A Go `useMap` (`map[string][]defUsePos`): lookup of a missing key yields
`nil`, modelled as `[]`; dropping a key (as `DeleteFunc` does for emptied
slices) and storing `[]` are observationally the same in the source. -/
abbrev UseTable := String → List DefUsePos

/-- Go `delete(defs, k)`. -/
def defsDelete (m : DefTable) (k : String) : DefTable :=
  fun k' => if k' = k then 0 else m k'

/-- Go `defs[k] = v`. -/
def defsSet (m : DefTable) (k : String) (v : Pos) : DefTable :=
  fun k' => if k' = k then v else m k'

/-- Pointwise update of a use table (Go map assignment / key deletion). -/
def usesSet (m : UseTable) (k : String) (v : List DefUsePos) : UseTable :=
  fun k' => if k' = k then v else m k'

/-- `useMap.Rename` from scope.go:

```go
func (m useMap) Rename(name string, def token.Pos, newName string) {
    uses := m.Lookup(name)
    equalDef := func(pos defUsePos) bool { return pos.Def == def }
    newUses := slices2.Filter(uses, equalDef)
    multiMap[defUsePos](m).DeleteFunc(name, equalDef)
    if len(newUses) > 0 {
        m.Add(newName, newUses...)
    }
}
```

(`DeleteFunc` keeps the entries whose `Def` differs from `def`, dropping the
key when none remain; `Add` appends to the slice under `newName`.) -/
def useRename (m : UseTable) (name : String) (dp : Pos) (newName : String) : UseTable :=
  let newUses := (m name).filter (fun e => e.defPos == dp)
  let m' := usesSet m name ((m name).filter (fun e => !(e.defPos == dp)))
  if newUses.isEmpty then m' else usesSet m' newName (m' newName ++ newUses)

/-- A scope with its definition table, use table and child scopes
(the `scope` struct of scope.go, restricted to the fields `renameChildren`
touches). -/
inductive STree where
  | node (defs : DefTable) (uses : UseTable) (children : List STree)

def STree.defs : STree → DefTable
  | .node d _ _ => d

def STree.uses : STree → UseTable
  | .node _ u _ => u

def STree.children : STree → List STree
  | .node _ _ c => c

mutual
/-- `renameChildren` from scope.go:

```go
func renameChildren(s *scope, name string, def token.Pos, newName string, defRenamed bool) {
    if !defRenamed {
        if pos := s.defs[name]; pos != token.NoPos {
            delete(s.defs, name)
            s.defs[newName] = pos
            defRenamed = true
        }
    }
    s.uses.Rename(name, def, newName)
    for _, child := range s.children {
        renameChildren((*scope)(child), name, def, newName, defRenamed)
    }
}
``` -/
def renameChildrenGo (name : String) (dp : Pos) (newName : String) :
    STree → Bool → STree
  | .node defs uses children, defRenamed =>
    let p := defs name
    if !defRenamed && p != 0 then
      .node (defsSet (defsDelete defs name) newName p) (useRename uses name dp newName)
        (renameChildrenList name dp newName children true)
    else
      .node defs (useRename uses name dp newName)
        (renameChildrenList name dp newName children defRenamed)

/-- The `for _, child := range s.children` loop of `renameChildren`. -/
def renameChildrenList (name : String) (dp : Pos) (newName : String) :
    List STree → Bool → List STree
  | [], _ => []
  | c :: cs, b =>
    renameChildrenGo name dp newName c b :: renameChildrenList name dp newName cs b
end

/-- `(*scope).RenameChildren` from scope.go: starts the cascade with
`defRenamed = false`. -/
def RenameChildren (s : STree) (name : String) (dp : Pos) (newName : String) : STree :=
  renameChildrenGo name dp newName s false

/-- Spec-side description of the rename's effect on one use table, written
from the claim: exactly the entries recorded under the old name whose
definition position equals `dp` move, appended under the new name; every
other entry of every key is untouched. -/
def UsesMoved (old : String) (dp : Pos) (new : String) (u u' : UseTable) : Prop :=
  u' old = (u old).filter (fun e => !(e.defPos == dp)) ∧
  u' new = u new ++ (u old).filter (fun e => e.defPos == dp) ∧
  ∀ k, k ≠ old → k ≠ new → u' k = u k

theorem useRename_moved (u : UseTable) (old : String) (dp : Pos) (new : String)
    (hne : old ≠ new) : UsesMoved old dp new u (useRename u old dp new) := by
  unfold useRename UsesMoved
  by_cases he : ((u old).filter (fun e => e.defPos == dp)).isEmpty
  · rw [if_pos he]
    have hnil : (u old).filter (fun e => e.defPos == dp) = [] := by
      simpa [List.isEmpty_iff] using he
    refine ⟨?_, ?_, ?_⟩
    · simp [usesSet]
    · simp [usesSet, hnil, Ne.symm hne]
    · intro k hk1 hk2
      simp [usesSet, hk1]
  · rw [if_neg he]
    refine ⟨?_, ?_, ?_⟩
    · simp [usesSet, hne]
    · simp [usesSet, Ne.symm hne]
    · intro k hk1 hk2
      simp [usesSet, hk1, hk2]

/-- Relation between an original subtree and its renamed image for scopes
strictly below the one holding the renamed definition: every node keeps its
defs table unchanged while its use entries for `dp` move from old to new. -/
inductive DescRenamed (old : String) (dp : Pos) (new : String) : STree → STree → Prop
  | node (defs : DefTable) (uses uses' : UseTable) (c c' : List STree) :
      UsesMoved old dp new uses uses' →
      List.Forall₂ (DescRenamed old dp new) c c' →
      DescRenamed old dp new (.node defs uses c) (.node defs uses' c')

theorem forall₂_renameChildrenList (old : String) (dp : Pos) (new : String)
    (cs : List STree)
    (h : ∀ x ∈ cs, DescRenamed old dp new x (renameChildrenGo old dp new x true)) :
    List.Forall₂ (DescRenamed old dp new) cs (renameChildrenList old dp new cs true) := by
  induction cs with
  | nil => exact List.Forall₂.nil
  | cons x xs ih =>
    show List.Forall₂ _ _ (_ :: _)
    exact List.Forall₂.cons (h x (by simp)) (ih (fun y hy => h y (by simp [hy])))

theorem descRenamed_renameChildrenGo (old : String) (dp : Pos) (new : String)
    (hne : old ≠ new) :
    (t : STree) → DescRenamed old dp new t (renameChildrenGo old dp new t true)
  | .node d u c => by
    have hkids : ∀ x ∈ c, DescRenamed old dp new x (renameChildrenGo old dp new x true) :=
      fun x hx => descRenamed_renameChildrenGo old dp new hne x
    show DescRenamed old dp new (.node d u c)
      (.node d (useRename u old dp new) (renameChildrenList old dp new c true))
    exact DescRenamed.node d u _ c _ (useRename_moved u old dp new hne)
      (forall₂_renameChildrenList old dp new c hkids)
termination_by t => sizeOf t
decreasing_by
  have h1 : sizeOf x < sizeOf c := List.sizeOf_lt_of_mem hx
  simp only [STree.node.sizeOf_spec]
  omega

/-- C4 counterexample: a defs entry keyed by the old name whose recorded
position (5) differs from the requested defPos (7) is rewritten to the new
name anyway, contradicting the claim that such an entry is left unchanged. -/
theorem renameChildren_position_ignored :
    (RenameChildren (.node (defsSet (fun _ => 0) "x" 5) (fun _ => []) []) "x" 7 "y").defs "x"
        = 0 ∧
    (RenameChildren (.node (defsSet (fun _ => 0) "x" 5) (fun _ => []) []) "x" 7 "y").defs "y"
        = 5 := by
  exact ⟨rfl, rfl⟩

/-- C4 (amended): called on a scope whose defs table records the old name at
`defPos` — the renamer's actual call pattern — `RenameChildren` rewrites
exactly that root defs entry to the new name, leaves every descendant defs
table untouched, and in every scope of the subtree moves exactly the use
entries whose definition position equals `defPos` from the old name to the
new name, leaving all other use entries unchanged.  The defs rewrite itself
is keyed by name only, so on a scope whose entry records a different
position the entry would still be rewritten (see the counterexample). -/
theorem renameChildren_rewrites (s : STree) (old new : String) (dp : Pos)
    (hroot : s.defs old = dp) (hdp : dp ≠ 0) (hne : old ≠ new) :
    (RenameChildren s old dp new).defs = defsSet (defsDelete s.defs old) new dp ∧
    UsesMoved old dp new s.uses (RenameChildren s old dp new).uses ∧
    List.Forall₂ (DescRenamed old dp new) s.children (RenameChildren s old dp new).children := by
  cases s with
  | node d u c =>
    simp only [STree.defs] at hroot
    have hcond : (!false && (d old != 0)) = true := by
      simp [hroot, hdp, bne]
    have hstep : RenameChildren (.node d u c) old dp new =
        .node (defsSet (defsDelete d old) new (d old)) (useRename u old dp new)
          (renameChildrenList old dp new c true) := by
      unfold RenameChildren renameChildrenGo
      rw [if_pos hcond]
    rw [hstep, hroot]
    refine ⟨rfl, useRename_moved u old dp new hne, ?_⟩
    exact forall₂_renameChildrenList old dp new c
      (fun x _ => descRenamed_renameChildrenGo old dp new hne x)

/-- Witness for `renameChildren_rewrites` on a one-scope tree holding the
definition `x` at position 5 with one recorded use. -/
theorem renameChildren_rewrites_witness :
    UsesMoved "x" 5 "y"
      (STree.node (defsSet (fun _ => 0) "x" 5) (usesSet (fun _ => []) "x" [⟨5, 9⟩]) []).uses
      (RenameChildren
        (STree.node (defsSet (fun _ => 0) "x" 5) (usesSet (fun _ => []) "x" [⟨5, 9⟩]) [])
        "x" 5 "y").uses :=
  (renameChildren_rewrites
    (STree.node (defsSet (fun _ => 0) "x" 5) (usesSet (fun _ => []) "x" [⟨5, 9⟩]) [])
    "x" "y" 5 rfl (by decide) (by decide)).2.1

/-! ## Part 3: the signature matcher (signature.go: matchType, matchSignature,
implSameMethod) -/

/-- The fragment of `go/types` type shapes that the claims exercise.  Each
node carries a `uid`: distinct Go type values have distinct identities, and
the Go comparison `t1 == t2` in `matchType` (interface/pointer identity) is
modelled as equality of uids; shared type values — such as the singleton
`types.Basic` for `int` — reuse one uid.  The type-parameter cases (which
defer to the external `types.Satisfies`) are outside the shapes the claims
range over and are omitted. -/
inductive GoType where
  | basic (uid : Nat) (name : String)
  | array (uid : Nat) (len : Int) (elem : GoType)
  | slice (uid : Nat) (elem : GoType)
  | ptr (uid : Nat) (elem : GoType)
  deriving DecidableEq, Repr

def GoType.uid : GoType → Nat
  | .basic u _ => u
  | .array u _ _ => u
  | .slice u _ => u
  | .ptr u _ => u

/-- `matchType` from signature.go, restricted to the shapes above:

```go
func matchType(t1, t2 types.Type) bool {
    t1, t2 = types.Unalias(t1), types.Unalias(t2)
    if t1 == t2 {
        return true // same types.
    }
    switch t1 := t1.(type) {
    case *types.Basic:
        switch t2 := t2.(type) {
        case *types.Basic:
            return types.Identical(t1, t2)
        ...
    case *types.Pointer:
        case *types.Pointer:
            return matchType(t1.Elem(), t2.Elem())
        ...
    case *types.Slice:
        case *types.Slice:
            return matchType(t1.Elem(), t2.Elem())
        ...
    case *types.Array:
        case *types.Array:
            // Two array types can be the same only if they have the same
            // length and their base types can be the same.
            return t1.Len() != t2.Len() && matchType(t1.Elem(), t2.Elem())
        ...
    }
}
```

`types.Identical` on basics is name identity here. -/
def matchType : GoType → GoType → Bool
  | .basic u1 n1, t2 =>
    if u1 == t2.uid then true
    else
      match t2 with
      | .basic _ n2 => n1 == n2
      | _ => false
  | .ptr u1 e1, t2 =>
    if u1 == t2.uid then true
    else
      match t2 with
      | .ptr _ e2 => matchType e1 e2
      | _ => false
  | .slice u1 e1, t2 =>
    if u1 == t2.uid then true
    else
      match t2 with
      | .slice _ e2 => matchType e1 e2
      | _ => false
  | .array u1 l1 e1, t2 =>
    if u1 == t2.uid then true
    else
      match t2 with
      | .array _ l2 e2 => (l1 != l2) && matchType e1 e2
      | _ => false

/-- `matchTuple` from signature.go: equal lengths and pairwise `matchType`
(the Go loop over `t1.Len()` positions is the conjunction over the zip). -/
def matchTuple (t1 t2 : List GoType) : Bool :=
  (t1.length == t2.length) && (List.zip t1 t2).all (fun p => matchType p.1 p.2)

/-- A `types.Signature` restricted to what `matchSignature` consults. -/
structure GoSignature where
  variadic : Bool
  params : List GoType
  results : List GoType
  deriving DecidableEq, Repr

/-- `matchSignature` from signature.go. -/
def matchSignature (sig1 sig2 : GoSignature) : Bool :=
  if sig1.variadic != sig2.variadic then false
  else if sig1.params.length != sig2.params.length then false
  else if sig1.results.length != sig2.results.length then false
  else if !matchTuple sig1.params sig2.params then false
  else if !matchTuple sig1.results sig2.results then false
  else true

/-- A `types.Func` restricted to what `implSameMethod` consults; `id` is the
qualified id `mtd.Id()` (name plus defining package for unexported names). -/
structure GoFunc where
  id : String
  sig : GoSignature
  deriving DecidableEq, Repr

/-- `implSameMethod` from signature.go. -/
def implSameMethod (mtd1 mtd2 : GoFunc) : Bool :=
  if mtd1.id != mtd2.id then false
  else matchSignature mtd1.sig mtd2.sig

/-- The singleton `types.Basic` for `int` (uid 0, shared between all uses,
as `go/types` shares `types.Typ[types.Int]`). -/
def intType : GoType := .basic 0 "int"

/-- C2: the array/array branch of `matchType` contradicts both the claim and
the code's own comment («Two array types can be the same only if they have
the same length...»): two distinct equal-length `[2]int` arrays with
matching element types yield `false`, while `[2]int` and `[3]int` (lengths
differing, elements matching) yield `true`. -/
theorem matchType_array_length_inverted :
    matchType (.array 1 2 intType) (.array 2 2 intType) = false ∧
    matchType (.array 1 2 intType) (.array 3 3 intType) = true ∧
    matchType intType intType = true := by
  decide

/-! ## Part 4: the selector model (selection.go) -/

/-- Identity of a `chainedType`/`typ` value in the per-package selector
model: an arena index standing in for the Go pointer. -/
abbrev TypId := Nat

/-- The variants of the private `typ` interface of selection.go, with the
pointers between type summaries replaced by arena ids.  `gg.Set[string]`
fields are modelled as duplicate-free string lists. -/
inductive TypNode where
  | defined (methods ptrMethods : List String) (underlying : Option TypId)
  | st (fields : List String) (embedded : List (String × TypId))
  | iface (methods : List String) (embedded : List TypId)
  | ptr (base : TypId)
  deriving DecidableEq, Repr

/-- The arena holding every `typ` of a package, indexed by `TypId`;
a dangling id (ill-formed model) reads as `none`. -/
abbrev Arena := TypId → Option TypNode

/-- In-place mutation of one `typ` (Go writes through the pointer). -/
def arenaSet (a : Arena) (id : TypId) (n : TypNode) : Arena :=
  fun i => if i = id then some n else a i

/-- `gg.Set.Add` (idempotent). -/
def setAdd (s : List String) (x : String) : List String :=
  if s.contains x then s else s ++ [x]

/-- `gg.Set.Delete`. -/
def setDelete (s : List String) (x : String) : List String :=
  s.filter (fun y => !(y == x))

/-- Which of the four depth queries of the `typ` interface is being asked
(`field`, `ptrField`, `method`, `ptrMethod`). -/
inductive QKind where
  | fld
  | ptrFld
  | mtd
  | ptrMtd
  deriving DecidableEq, Repr

/-- The depth-combining tail of `(*st).promoted`:

```go
slices.Sort(depths)
if len := len(depths); len == 0 {
    return -1
} else if len > 1 && depths[0] == depths[1] {
    return -1 // more than one shallowest paths.
} else {
    return depths[0] + 1
}
```
(`depths` is the `> -1` filter of the per-embedding results; `slices.Sort`
is modelled by insertion sort, which also sorts ascending). -/
def promotedCombine (depths : List Int) : Int :=
  match List.insertionSort (fun a b : Int => a ≤ b) (depths.filter (fun i => -1 < i)) with
  | [] => -1
  | [d] => d + 1
  | d0 :: d1 :: _ => if d0 = d1 then -1 else d0 + 1

/-- The four mutually recursive depth queries `field`, `ptrField`, `method`
and `ptrMethod` of selection.go, merged into one fuel-indexed function over
the arena.  `none` models both a Go panic (nil `underlying` dereference in
`(*defined).ptrMethod`, the "bad receiver" panic, a nil `*ptr` in
`(*st).ptrMethod`) and fuel exhaustion (the Go code can recurse forever on
pathological type graphs; the claims supply enough fuel).  The visited set
of `(*st).promoted` is threaded as the list of st-node ids on the current
path (Go's `visited.Add` / deferred `visited.Delete` push/pop pair), and
Go's short-circuiting scans over embeddings are modelled as full maps —
observationally equal whenever no embedding panics.  The binary search of
`(*st).field` over the name-sorted `embedded` list is membership. -/
def query (a : Arena) (name : String) :
    Nat → QKind → TypId → List TypId → Option Int
  | 0, _, _, _ => none
  | Nat.succ fuel, k, id, visited =>
    match a id with
    | none => none
    | some (.defined methods ptrMethods underlying) =>
      match k with
      | .fld =>
        match underlying with
        | none => some (-1)
        | some u => query a name fuel .fld u visited
      | .ptrFld =>
        match underlying with
        | none => some (-1)
        | some u => query a name fuel .ptrFld u visited
      | .mtd =>
        match underlying with
        | none => if methods.contains name then some 0 else some (-1)
        | some u =>
          match a u with
          | none => none
          | some (.iface _ _) => query a name fuel .mtd u visited
          | some (.st _ _) =>
            if methods.contains name then some 0
            else query a name fuel .mtd u visited
          | some _ =>
            if methods.contains name then some 0 else some (-1)
      | .ptrMtd =>
        match underlying with
        | none =>
          (query a name fuel .mtd id visited).bind fun i =>
            if -1 < i then some i
            else if ptrMethods.contains name then some 0
            else none
        | some u =>
          match a u with
          | none => none
          | some (.ptr _) => none
          | some _ =>
            (query a name fuel .mtd id visited).bind fun i =>
              if -1 < i then some i
              else if ptrMethods.contains name then some 0
              else query a name fuel .ptrMtd u visited
    | some (.st fields embedded) =>
      match k with
      | .fld =>
        if fields.contains name then some 0
        else if embedded.any (fun e => e.1 == name) then some 0
        else if visited.contains id then some (-1)
        else
          (embedded.mapM (fun e => query a name fuel .fld e.2 (id :: visited))).bind
            fun ds => some (promotedCombine ds)
      | .ptrFld => query a name fuel .fld id visited
      | .mtd =>
        if visited.contains id then some (-1)
        else
          (embedded.mapM (fun e => query a name fuel .mtd e.2 (id :: visited))).bind
            fun ds => some (promotedCombine ds)
      | .ptrMtd =>
        if visited.contains id then some (-1)
        else
          (embedded.mapM (fun (e : String × TypId) =>
            match a e.2 with
            | some (.defined _ _ _) => query a name fuel .ptrMtd e.2 (id :: visited)
            | some (.ptr b) => query a name fuel .ptrMtd b (id :: visited)
            | _ => none)).bind
            fun ds => some (promotedCombine ds)
    | some (.iface methods embedded) =>
      match k with
      | .fld => some (-1)
      | .ptrFld => some (-1)
      | .ptrMtd => some (-1)
      | .mtd =>
        if methods.contains name then some 0
        else
          (embedded.mapM (fun e => query a name fuel .mtd e visited)).bind
            fun ds => if ds.any (fun i => -1 < i) then some 0 else some (-1)
    | some (.ptr base) =>
      match k with
      | .fld => query a name fuel .ptrFld base visited
      | .ptrFld => some (-1)
      | .mtd => query a name fuel .ptrMtd base visited
      | .ptrMtd => some (-1)

/-- `field` of selection.go: fresh visited set. -/
def fieldDepth (a : Arena) (fuel : Nat) (t : TypId) (name : String) : Option Int :=
  query a name fuel .fld t []

/-- `method` of selection.go: fresh visited set. -/
def methodDepth (a : Arena) (fuel : Nat) (t : TypId) (name : String) : Option Int :=
  query a name fuel .mtd t []

/-- `HasName` of selection.go. -/
def HasName (a : Arena) (fuel : Nat) (t : TypId) (name : String) : Option Int :=
  (fieldDepth a fuel t name).bind fun d =>
    if -1 < d then some d else methodDepth a fuel t name

/-- The `Selection` struct of selection.go: the type arena together with the
`embeders` back-edges of each `chainedType` and the field/method position
map `fmm`. -/
structure Selection where
  arena : Arena
  embeders : TypId → List TypId
  fmm : Pos → Option TypId

/-- `canRenameSelTo` from selection.go: the new name must not already be
selectable on the type or on any of its embedders. -/
def canRenameSelTo (sel : Selection) (fuel : Nat) (t : TypId) (name : String) : Option Bool :=
  (HasName sel.arena fuel t name).bind fun d =>
    if -1 < d then some false
    else
      ((sel.embeders t).mapM (fun e => HasName sel.arena fuel e name)).bind fun ds =>
        some (ds.all (fun d => !(-1 < d : Bool)))

/-- The four rename commit helpers of selection.go
(`renameStructField`, `renameInterfaceMethod`, `renameDefinedSel`,
`renamePtrSel`), merged into one fuel-indexed function dispatching on the
node variant exactly as the Go type switches do.  The `ptr`-with-`defined`-
base branch faithfully reproduces the source:

```go
func renamePtrSel(t *ptr, name, newName string) bool {
    switch t := t.base.(type) {
    case *defined:
        if t.ptrMethods.Contains(name) {
            t.ptrMethods.Delete(name)
            t.ptrMethods.Add(name)      // note: adds the OLD name back
            return true
        }
        return renameDefinedSel(t, name, newName)
    case *st:
        return renameStructField(t, name, newName)
    }
    return false
}
``` -/
def renameSel (a : Arena) :
    Nat → TypId → String → String → Option (Bool × Arena)
  | 0, _, _, _ => none
  | Nat.succ fuel, id, name, newName =>
    match a id with
    | none => none
    | some (.st fields embedded) =>
      if fields.contains name then
        some (true, arenaSet a id (.st (setAdd (setDelete fields name) newName) embedded))
      else some (false, a)
    | some (.iface methods embedded) =>
      if methods.contains name then
        some (true, arenaSet a id (.iface (setAdd (setDelete methods name) newName) embedded))
      else some (false, a)
    | some (.defined methods ptrMethods underlying) =>
      if methods.contains name then
        some (true,
          arenaSet a id (.defined (setAdd (setDelete methods name) newName) ptrMethods underlying))
      else
        match underlying with
        | none => some (false, a)
        | some u =>
          match a u with
          | some (.st _ _) => renameSel a fuel u name newName
          | some (.ptr _) => renameSel a fuel u name newName
          | some (.iface _ _) => renameSel a fuel u name newName
          | _ => some (false, a)
    | some (.ptr base) =>
      match a base with
      | some (.defined m pm u) =>
        if pm.contains name then
          some (true, arenaSet a base (.defined m (setAdd (setDelete pm name) name) u))
        else renameSel a fuel base name newName
      | some (.st _ _) => renameSel a fuel base name newName
      | _ => some (false, a)

/-- `Selection.Rename` from selection.go; `none` models the
`panic("rename failed")` (and fuel exhaustion / a dangling `fmm` entry). -/
def SelectionRename (sel : Selection) (fuel : Nat) (name : String) (pos : Pos)
    (newName : String) : Option (Bool × Selection) :=
  match sel.fmm pos with
  | none => none
  | some t =>
    match canRenameSelTo sel fuel t newName with
    | none => none
    | some false => some (false, sel)
    | some true =>
      match renameSel sel.arena fuel t name newName with
      | none => none
      | some (true, a') => some (true, { sel with arena := a' })
      | some (false, _) => none

/-- The selector model of `type T struct{}` with one pointer-receiver
method `F` declared at position 10: id 0 is the struct literal, id 1 the
defined type `T`, id 2 is `*T`; `fmm` maps the method position to `*T`,
exactly as `Selection.New` registers a pointer receiver. -/
def selC3 : Selection where
  arena := fun i =>
    if i = 0 then some (.st [] [])
    else if i = 1 then some (.defined [] ["F"] (some 0))
    else if i = 2 then some (.ptr 1)
    else none
  embeders := fun _ => []
  fmm := fun p => if p = 10 then some 2 else none

/-- C3: `Selection.Rename` of the pointer-receiver method `F` to `G` reports
success, yet the owning type's pointer-receiver method set still contains
the old name `F` and never receives `G`: `renamePtrSel` deletes `name` and
re-adds `name` instead of `newName` (selection.go: `t.ptrMethods.Add(name)`),
contradicting the claim and the commit helpers' own documentation. -/
theorem selectionRename_ptrMethod_keeps_old_name :
    (SelectionRename selC3 20 "F" 10 "G").map (fun r => r.1) = some true ∧
    (SelectionRename selC3 20 "F" 10 "G").bind (fun r => r.2.arena 1)
      = some (.defined [] ["F"] (some 0)) :=
  ⟨by decide, by decide⟩

/-- AST identifiers touched by `RenameFieldMethod`, as a position-indexed
name table (`*ast.Ident` carries a position and a mutable name). -/
abbrev IdentTable := Pos → Option String

/-- `(*defRenamer).RenameFieldMethod` from renamer.go:

```go
func (renamer *defRenamer) RenameFieldMethod(id *ast.Ident, newName string) bool {
    if !renamer.sel.Rename(id.Name, id.Pos(), newName) {
        return false
    }
    id.Name = newName
    return true
}
```

It commits the selector rename and mutates this one identifier; no other
member of the method's equivalence class is touched. -/
def RenameFieldMethod (sel : Selection) (idents : IdentTable) (idPos : Pos)
    (fuel : Nat) (newName : String) : Option (Bool × Selection × IdentTable) :=
  match idents idPos with
  | none => none
  | some name =>
    match SelectionRename sel fuel name idPos newName with
    | none => none
    | some (false, _) => some (false, sel, idents)
    | some (true, sel') =>
      some (true, sel', fun p => if p = idPos then some newName else idents p)

/-- The model of
`type I interface{ F(int) }; type A int; func (A) F(int) {}; type B int; func (B) F(int) {}`:
ids 1 and 2 are the defined types `A` and `B` (each with value method `F`;
underlying `int` is outside the model, hence `none`), id 3 the interface
literal with explicit method `F`, id 4 the defined type `I`.  Positions 11,
12 and 13 hold the declaration identifiers of `A.F`, `B.F` and `I.F`. -/
def selC1 : Selection where
  arena := fun i =>
    if i = 1 then some (.defined ["F"] [] none)
    else if i = 2 then some (.defined ["F"] [] none)
    else if i = 3 then some (.iface ["F"] [])
    else if i = 4 then some (.defined [] [] (some 3))
    else none
  embeders := fun _ => []
  fmm := fun p =>
    if p = 11 then some 1 else if p = 12 then some 2 else if p = 13 then some 3 else none

/-- The three declaration identifiers of `A.F`, `B.F` and `I.F`. -/
def identsC1 : IdentTable :=
  fun p => if p = 11 ∨ p = 12 ∨ p = 13 then some "F" else none

/-- C1: the driver's `RenameFieldMethod` renames `A.F` alone.  The first
conjunct shows `A.F` and `B.F` belong to the same method equivalence class
under the signature matcher (`implSameMethod` holds for two value methods
named `F` with signature `func(int)`); the rest show the rename of `A.F`
to `G` succeeds, while `B.F`'s identifier and method-set entry and the
interface method `I.F` all keep the old name `F` in the same commit —
exactly what the claim (and spec scenario 2) says never happens.
`GroupMethods` exists and is tested, but renamer.go never calls it. -/
theorem renameFieldMethod_skips_group_members :
    implSameMethod ⟨"F", ⟨false, [intType], []⟩⟩ ⟨"F", ⟨false, [intType], []⟩⟩ = true ∧
    (RenameFieldMethod selC1 identsC1 11 20 "G").map (fun r => r.1) = some true ∧
    (RenameFieldMethod selC1 identsC1 11 20 "G").bind (fun r => r.2.2 11) = some "G" ∧
    (RenameFieldMethod selC1 identsC1 11 20 "G").bind (fun r => r.2.2 12) = some "F" ∧
    (RenameFieldMethod selC1 identsC1 11 20 "G").bind (fun r => r.2.2 13) = some "F" ∧
    (RenameFieldMethod selC1 identsC1 11 20 "G").bind (fun r => r.2.1.arena 1)
      = some (.defined ["G"] [] none) ∧
    (RenameFieldMethod selC1 identsC1 11 20 "G").bind (fun r => r.2.1.arena 2)
      = some (.defined ["F"] [] none) ∧
    (RenameFieldMethod selC1 identsC1 11 20 "G").bind (fun r => r.2.1.arena 3)
      = some (.iface ["F"] []) :=
  ⟨by decide, by decide, by decide, by decide, by decide, by decide, by decide, by decide⟩

theorem promotedCombine_min_spec (ds : List Int) (d : Int)
    (hmem : d ∈ ds.filter (fun i => -1 < i))
    (hmin : ∀ x ∈ ds.filter (fun i => -1 < i), d ≤ x) :
    (2 ≤ (ds.filter (fun i => -1 < i)).count d → promotedCombine ds = -1) ∧
    ((ds.filter (fun i => -1 < i)).count d = 1 → promotedCombine ds = d + 1) := by
  set p := ds.filter (fun i => -1 < i) with hp
  have hperm : List.Perm (List.insertionSort (fun a b : Int => a ≤ b) p) p :=
    List.perm_insertionSort _ p
  have hsorted : List.Sorted (fun a b : Int => a ≤ b)
      (List.insertionSort (fun a b : Int => a ≤ b) p) :=
    List.sorted_insertionSort _ p
  have hmem' : d ∈ List.insertionSort (fun a b : Int => a ≤ b) p := hperm.mem_iff.mpr hmem
  have hmin' : ∀ x ∈ List.insertionSort (fun a b : Int => a ≤ b) p, d ≤ x := by
    intro x hx
    exact hmin x (hperm.mem_iff.mp hx)
  have hcount : ∀ x : Int,
      (List.insertionSort (fun a b : Int => a ≤ b) p).count x = p.count x := by
    intro x
    exact hperm.count_eq x
  unfold promotedCombine
  rw [← hp]
  cases hs : List.insertionSort (fun a b : Int => a ≤ b) p with
  | nil => rw [hs] at hmem'; exact absurd hmem' (List.not_mem_nil d)
  | cons x rest =>
    rw [hs] at hmem' hmin' hsorted
    rw [hs] at hcount
    have hxd : x = d := by
      rcases List.mem_cons.mp hmem' with h | h
      · exact h.symm
      · have h1 : x ≤ d := (List.sorted_cons.mp hsorted).1 d h
        have h2 : d ≤ x := hmin' x (List.mem_cons_self x rest)
        omega
    subst hxd
    constructor
    · intro h2
      have hx2 := hcount x
      rw [List.count_cons_self] at hx2
      have hrest : 1 ≤ rest.count x := by omega
      have hdmem : x ∈ rest := List.count_pos_iff.mp (by omega)
      cases rest with
      | nil => simp at hdmem
      | cons y rest2 =>
        have hy1 : x ≤ y := (List.sorted_cons.mp hsorted).1 y (List.mem_cons_self y rest2)
        have hy2 : y ≤ x := by
          rcases List.mem_cons.mp hdmem with h | h
          · omega
          · exact (List.sorted_cons.mp (List.sorted_cons.mp hsorted).2).1 x h
        have hxy : x = y := by omega
        show (if x = y then (-1 : Int) else x + 1) = -1
        rw [if_pos hxy]
    · intro h1
      have hx2 := hcount x
      rw [List.count_cons_self] at hx2
      have hrest : rest.count x = 0 := by omega
      cases rest with
      | nil => rfl
      | cons y rest2 =>
        have hxy : ¬ x = y := by
          intro hxy
          rw [← hxy, List.count_cons_self] at hrest
          omega
        show (if x = y then (-1 : Int) else x + 1) = x + 1
        rw [if_neg hxy]

/-- C8: for a struct with no direct field `n`, no embedded-name match for
`n` and no cycle hit, whose per-embedding field queries return the depth
list `ds`: when the minimal promoted depth `d` is attained by at least two
embeddings the depth query answers `-1` (ambiguous, not selectable), and
when exactly one embedding attains it the query answers `d + 1`. -/
theorem stField_promotion_ambiguity (a : Arena) (fuel : Nat) (id : TypId)
    (fields : List String) (embedded : List (String × TypId)) (name : String)
    (visited : List TypId) (ds : List Int) (d : Int)
    (hnode : a id = some (.st fields embedded))
    (hfld : fields.contains name = false)
    (hemb : embedded.any (fun e => e.1 == name) = false)
    (hvis : visited.contains id = false)
    (hmap : embedded.mapM (fun e => query a name fuel .fld e.2 (id :: visited)) = some ds)
    (hmem : d ∈ ds.filter (fun i => -1 < i))
    (hmin : ∀ x ∈ ds.filter (fun i => -1 < i), d ≤ x) :
    (2 ≤ (ds.filter (fun i => -1 < i)).count d →
      query a name (fuel + 1) .fld id visited = some (-1)) ∧
    ((ds.filter (fun i => -1 < i)).count d = 1 →
      query a name (fuel + 1) .fld id visited = some (d + 1)) := by
  have hstep : query a name (fuel + 1) .fld id visited = some (promotedCombine ds) := by
    show (match a id with
      | none => none
      | some (.defined methods ptrMethods underlying) =>
        match underlying with
        | none => some (-1)
        | some u => query a name fuel .fld u visited
      | some (.st fields embedded) =>
        if fields.contains name then some 0
        else if embedded.any (fun e => e.1 == name) then some 0
        else if visited.contains id then some (-1)
        else
          (embedded.mapM (fun e => query a name fuel .fld e.2 (id :: visited))).bind
            fun ds => some (promotedCombine ds)
      | some (.iface methods embedded) => some (-1)
      | some (.ptr base) => query a name fuel .ptrFld base visited) =
      some (promotedCombine ds)
    rw [hnode]
    show (if fields.contains name then some 0
      else if embedded.any (fun e => e.1 == name) then some 0
      else if visited.contains id then some (-1)
      else
        (embedded.mapM (fun e => query a name fuel .fld e.2 (id :: visited))).bind
          fun ds => some (promotedCombine ds)) = some (promotedCombine ds)
    rw [hfld, hemb, hvis, hmap]
    rfl
  rw [hstep]
  have hspec := promotedCombine_min_spec ds d hmem hmin
  constructor
  · intro h2
    rw [(hspec.1 h2)]
  · intro h1
    rw [(hspec.2 h1)]

/-- The selector model for
`type A struct{ X int }; type B struct{ X int }; type C struct{ A; B }`:
ids 10 and 11 are the struct literals of `A` and `B` (each with field `X`),
ids 20 and 21 the defined types `A` and `B`, id 12 the struct literal of
`C` embedding both. -/
def arenaC8 : Arena := fun i =>
  if i = 10 then some (.st ["X"] [])
  else if i = 11 then some (.st ["X"] [])
  else if i = 20 then some (.defined [] [] (some 10))
  else if i = 21 then some (.defined [] [] (some 11))
  else if i = 12 then some (.st [] [("A", 20), ("B", 21)])
  else none

/-- Witness for `stField_promotion_ambiguity`: on `C`, both embeddings
resolve `X` at depth 0, so the query is ambiguous and answers `-1`. -/
theorem stField_promotion_ambiguity_witness :
    query arenaC8 "X" 6 .fld 12 [] = some (-1) :=
  (stField_promotion_ambiguity arenaC8 5 12 [] [("A", 20), ("B", 21)] "X" [] [0, 0] 0
    (by decide) (by decide) (by decide) (by decide) (by decide) (by decide)
    (by decide)).1 (by decide)

/-! ## Part 5: the identifier generator (idgen.go) -/

/-- Go's `\p{Lu}` character class, restricted to ASCII (every input the
claims exercise — default seeds, reserved words — is ASCII). -/
def isLu (c : Char) : Bool := c.isUpper

/-- The leading class of `reLlmot` (`_`, `\p{Ll}`, `\p{Lm}`, `\p{Lo}`,
`\p{Lt}`), ASCII fragment. -/
def isLlmotStart (c : Char) : Bool := c == '_' || c.isLower

/-- The continuation class `[_\pL\p{Nd}]`, ASCII fragment. -/
def isIdCont (c : Char) : Bool := c == '_' || c.isAlpha || c.isDigit

/-- `reLu` = `^\p{Lu}[_\pL\p{Nd}]*$`. -/
def reLuMatch : GoStr → Bool
  | [] => false
  | c :: rest => isLu c && rest.all isIdCont

/-- `reLlmot` = `^[_\p{Ll}\p{Lm}\p{Lo}\p{Lt}]+[_\pL\p{Nd}]*$`: since the
leading class is contained in the continuation class, the regex accepts
exactly the nonempty strings whose first character is in the leading class
and whose remaining characters are continuation characters. -/
def reLlmotMatch : GoStr → Bool
  | [] => false
  | c :: rest => isLlmotStart c && rest.all isIdCont

/-- `reLNd` = `^[_\pL\p{Nd}]+$`. -/
def reLNdMatch : GoStr → Bool
  | [] => false
  | s => s.all isIdCont

/-- The `Generator` struct of idgen.go. -/
structure Generator where
  lu : List GoStr
  lmot : List GoStr
  all : List GoStr

/-- The body of `NewGenerator`'s classification loop; the second component
is the `existing` dedup set. -/
def classifyStep (acc : Generator × List GoStr) (elem : GoStr) : Generator × List GoStr :=
  let g := acc.1
  let existing := acc.2
  if existing.contains elem then acc
  else
    let existing := elem :: existing
    if reLuMatch elem then
      ({ g with lu := g.lu ++ [elem], all := g.all ++ [elem] }, existing)
    else if reLlmotMatch elem then
      ({ g with lmot := g.lmot ++ [elem], all := g.all ++ [elem] }, existing)
    else if reLNdMatch elem then
      ({ g with all := g.all ++ [elem] }, existing)
    else (g, existing)

/-- `NewGenerator` from idgen.go: classify the (deduplicated) seed elements,
then install the defaults `A` / `_` for an empty leading class and
`lu ++ lmot` for an empty `all`. -/
def NewGenerator (elements : List GoStr) : Generator :=
  let g := (elements.foldl classifyStep (⟨[], [], []⟩, [])).1
  let lu := if g.lu.isEmpty then [['A']] else g.lu
  let lmot := if g.lmot.isEmpty then [['_']] else g.lmot
  let all := if g.all.isEmpty then lu ++ lmot else g.all
  ⟨lu, lmot, all⟩

/-- The `reserved` list of idgen.go (built-ins and keywords). -/
def reserved : List GoStr :=
  ["any", "bool", "byte", "comparable",
   "complex64", "complex128", "error", "float32", "float64",
   "int", "int8", "int16", "int32", "int64", "rune", "string",
   "uint", "uint8", "uint16", "uint32", "uint64", "uintptr",
   "true", "false", "iota",
   "nil",
   "append", "cap", "clear", "close", "complex", "copy", "delete", "imag", "len",
   "make", "max", "min", "new", "panic", "print", "println", "real", "recover",
   "break", "default", "func", "interface", "select",
   "case", "defer", "go", "map", "struct",
   "chan", "else", "goto", "package", "switch",
   "const", "fallthrough", "if", "range", "type",
   "continue", "for", "import", "return", "var"].map String.data

/-- `forbiddenUnexported` from idgen.go: the union of the reserved list and
the caller-supplied names (set union modelled by concatenation, which has
the same membership). -/
def forbiddenUnexported (userDefined : List GoStr) : List GoStr :=
  reserved ++ userDefined

/-- The digit scan of `incIndexes`, with the pending increment carried in
(`carry = 1` at the head models `(*indexes)[0]++`; a later `carry = 1`
models `(*indexes)[i+1]++`).  Every digit of `(*indexes)[:len-1]` is
checked against `base` — like the Go loop, even a digit that received no
carry — and the last digit against `base0`, growing the odometer by an
appended 0 on overflow. -/
def incIndexesAux (base0 base : Nat) : List Nat → Nat → List Nat
  | [], _ => []
  | [d], carry =>
    if base0 - 1 < d + carry then [0, 0] else [d + carry]
  | d :: r :: rest, carry =>
    if base - 1 < d + carry then 0 :: incIndexesAux base0 base (r :: rest) 1
    else (d + carry) :: incIndexesAux base0 base (r :: rest) 0

/-- `incIndexes` from idgen.go; `none` models
`panic("invalid arguments")`. -/
def incIndexes (base0 base : Nat) (indexes : List Nat) : Option (List Nat) :=
  if indexes.isEmpty || base0 == 0 || base == 0 then none
  else some (incIndexesAux base0 base indexes 1)

/-- The candidate built by one pass of `genHelper`'s loop body:
`d0[stack[len-1]]` followed by `all[stack[i]]` for `i` from `len-2` down to
0.  An out-of-range index — impossible in reachable states — reads as the
empty string where Go would panic. -/
def candidate (d0 allList : List GoStr) (stack : List Nat) : GoStr :=
  (stack.dropLast.reverse.map (fun i => allList.getD i [])).foldl
    (fun acc s => acc ++ s) (d0.getD (stack.getLast?.getD 0) [])

/-- `genHelper` from idgen.go, fuel-indexed:

```go
func (g *Generator) genHelper(d0 []string, stack *[]int, forbidden gg.Set[string]) string {
    for {
        var builder strings.Builder
        builder.WriteString(d0[(*stack)[len(*stack)-1]])
        for i := len(*stack) - 2; i >= 0; i-- {
            builder.WriteString(g.all[(*stack)[i]])
        }
        incIndexes(stack, len(d0), len(g.all))
        id := builder.String()
        if forbidden == nil {
            return id
        } else if _, in := forbidden[id]; !in {
            return id
        }
    }
}
```

A nil forbidden map and an empty one behave identically and are both the
empty list; `none` models fuel exhaustion (the loop spinning forever) or
the `incIndexes` panic. -/
def genHelperFuel (g : Generator) (d0 forbidden : List GoStr) :
    Nat → List Nat → Option (GoStr × List Nat)
  | 0, _ => none
  | Nat.succ fuel, stack =>
    let id := candidate d0 g.all stack
    match incIndexes d0.length g.all.length stack with
    | none => none
    | some stack' =>
      if forbidden.contains id then genHelperFuel g d0 forbidden fuel stack'
      else some (id, stack')

/-- The ids produced by `n` successive calls of a `next` closure (each call
advancing the shared odometer), truncated if the fuel for a single call
runs out. -/
def genOutputs (g : Generator) (d0 forbidden : List GoStr) (fuel : Nat) :
    Nat → List Nat → List GoStr
  | 0, _ => []
  | Nat.succ n, stack =>
    match genHelperFuel g d0 forbidden fuel stack with
    | none => []
    | some (id, stack') => id :: genOutputs g d0 forbidden fuel n stack'

/-- The first `n` ids of `g.NewExported(forbidden)` (idgen.go starts the
odometer at `[0]` and leaves the caller's forbidden set as is). -/
def NewExportedOutputs (g : Generator) (forbidden : List GoStr) (fuel n : Nat) : List GoStr :=
  genOutputs g g.lu forbidden fuel n [0]

/-- The first `n` ids of `g.NewUnexported(forbidden)` (idgen.go widens the
forbidden set with the reserved words). -/
def NewUnexportedOutputs (g : Generator) (forbidden : List GoStr) (fuel n : Nat) : List GoStr :=
  genOutputs g g.lmot (forbiddenUnexported forbidden) fuel n [0]

/-- The embedding reproduces `Test_New_exported` of idgen.go:
`NewGenerator("A", "b", "0").NewExported({"A"})` yields
`AA, Ab, A0, AAA, AAb, AA0`. -/
theorem idgen_exported_test_trace :
    NewExportedOutputs (NewGenerator ["A".data, "b".data, "0".data]) ["A".data] 4 6 =
      ["AA".data, "Ab".data, "A0".data, "AAA".data, "AAb".data, "AA0".data] := by
  decide

/-- The embedding reproduces `Test_New_unexported` of idgen.go:
`NewGenerator("A", "0").NewUnexported(nil)` yields
`_, _A, _0, _AA, _A0, _0A, _00, _AAA`. -/
theorem idgen_unexported_test_trace :
    NewUnexportedOutputs (NewGenerator ["A".data, "0".data]) [] 4 8 =
      ["_".data, "_A".data, "_0".data, "_AA".data, "_A0".data, "_0A".data,
       "_00".data, "_AAA".data] := by
  decide

/-- C6 counterexample: with seeds `A` and `AA` (both retained in the
upper-initial class), the second and third calls of
`NewGenerator("A","AA").NewExported(nil)` both return `AA` — the two-digit
odometer state `A·A` concatenates to the same string as the one-digit
state `AA` — so the stream does repeat. -/
theorem genOutputs_duplicate :
    NewExportedOutputs (NewGenerator ["A".data, "AA".data]) [] 4 3 =
      ["A".data, "AA".data, "AA".data] ∧
    ¬ (NewExportedOutputs (NewGenerator ["A".data, "AA".data]) [] 4 3).Nodup :=
  ⟨by decide, by decide⟩

/-- Invariant of `NewGenerator`'s classification loop over the seed list
`l`: `p.1` is the generator under construction and `p.2` the `existing`
dedup set. -/
structure AccInv (l : List GoStr) (p : Generator × List GoStr) : Prop where
  luMatch : ∀ s ∈ p.1.lu, reLuMatch s = true
  lmotMatch : ∀ s ∈ p.1.lmot, reLlmotMatch s = true
  allNe : ∀ s ∈ p.1.all, s ≠ []
  luAll : ∀ s ∈ p.1.lu, s ∈ p.1.all
  lmotAll : ∀ s ∈ p.1.lmot, s ∈ p.1.all
  luEx : ∀ s ∈ p.1.lu, s ∈ p.2
  lmotEx : ∀ s ∈ p.1.lmot, s ∈ p.2
  allEx : ∀ s ∈ p.1.all, s ∈ p.2
  luNodup : p.1.lu.Nodup
  lmotNodup : p.1.lmot.Nodup
  allNodup : p.1.all.Nodup
  luMem : ∀ s ∈ p.1.lu, s ∈ l
  lmotMem : ∀ s ∈ p.1.lmot, s ∈ l
  allMem : ∀ s ∈ p.1.all, s ∈ l

theorem reLuMatch_ne_nil (s : GoStr) (h : reLuMatch s = true) : s ≠ [] := by
  cases s with
  | nil => simp [reLuMatch] at h
  | cons c rest => simp

theorem reLlmotMatch_ne_nil (s : GoStr) (h : reLlmotMatch s = true) : s ≠ [] := by
  cases s with
  | nil => simp [reLlmotMatch] at h
  | cons c rest => simp

theorem reLNdMatch_ne_nil (s : GoStr) (h : reLNdMatch s = true) : s ≠ [] := by
  cases s with
  | nil => simp [reLNdMatch] at h
  | cons c rest => simp

theorem classifyStep_inv (l : List GoStr) (p : Generator × List GoStr) (e : GoStr)
    (he : e ∈ l) (h : AccInv l p) : AccInv l (classifyStep p e) := by
  obtain ⟨⟨lu, lmot, all⟩, ex⟩ := p
  unfold classifyStep
  by_cases hc : ex.contains e
  · rw [if_pos hc]
    exact h
  · have hex : e ∉ ex := by
      intro hmem
      exact absurd (List.elem_iff.mpr hmem) (by simpa using hc)
    rw [if_neg hc]
    by_cases hlu : reLuMatch e
    · rw [if_pos hlu]
      refine ⟨?_, h.lmotMatch, ?_, ?_, ?_, ?_, ?_, ?_, ?_, h.lmotNodup, ?_, ?_, h.lmotMem, ?_⟩
      · intro s hs
        rcases List.mem_append.mp hs with hs | hs
        · exact h.luMatch s hs
        · simp at hs; subst hs; exact hlu
      · intro s hs
        rcases List.mem_append.mp hs with hs | hs
        · exact h.allNe s hs
        · simp at hs; subst hs; exact reLuMatch_ne_nil _ hlu
      · intro s hs
        rcases List.mem_append.mp hs with hs | hs
        · exact List.mem_append.mpr (Or.inl (h.luAll s hs))
        · exact List.mem_append.mpr (Or.inr hs)
      · intro s hs
        exact List.mem_append.mpr (Or.inl (h.lmotAll s hs))
      · intro s hs
        rcases List.mem_append.mp hs with hs | hs
        · exact List.mem_cons_of_mem e (h.luEx s hs)
        · simp at hs; subst hs; exact List.mem_cons_self _ _
      · intro s hs
        exact List.mem_cons_of_mem e (h.lmotEx s hs)
      · intro s hs
        rcases List.mem_append.mp hs with hs | hs
        · exact List.mem_cons_of_mem e (h.allEx s hs)
        · simp at hs; subst hs; exact List.mem_cons_self _ _
      · rw [List.nodup_append]
        refine ⟨h.luNodup, by simp, ?_⟩
        intro s hs hse
        simp at hse
        subst hse
        exact hex (h.luEx s hs)
      · rw [List.nodup_append]
        refine ⟨h.allNodup, by simp, ?_⟩
        intro s hs hse
        simp at hse
        subst hse
        exact hex (h.allEx s hs)
      · intro s hs
        rcases List.mem_append.mp hs with hs | hs
        · exact h.luMem s hs
        · simp at hs; subst hs; exact he
      · intro s hs
        rcases List.mem_append.mp hs with hs | hs
        · exact h.allMem s hs
        · simp at hs; subst hs; exact he
    · rw [if_neg hlu]
      by_cases hlm : reLlmotMatch e
      · rw [if_pos hlm]
        refine ⟨h.luMatch, ?_, ?_, ?_, ?_, ?_, ?_, ?_, h.luNodup, ?_, ?_, h.luMem, ?_, ?_⟩
        · intro s hs
          rcases List.mem_append.mp hs with hs | hs
          · exact h.lmotMatch s hs
          · simp at hs; subst hs; exact hlm
        · intro s hs
          rcases List.mem_append.mp hs with hs | hs
          · exact h.allNe s hs
          · simp at hs; subst hs; exact reLlmotMatch_ne_nil _ hlm
        · intro s hs
          exact List.mem_append.mpr (Or.inl (h.luAll s hs))
        · intro s hs
          rcases List.mem_append.mp hs with hs | hs
          · exact List.mem_append.mpr (Or.inl (h.lmotAll s hs))
          · exact List.mem_append.mpr (Or.inr hs)
        · intro s hs
          exact List.mem_cons_of_mem e (h.luEx s hs)
        · intro s hs
          rcases List.mem_append.mp hs with hs | hs
          · exact List.mem_cons_of_mem e (h.lmotEx s hs)
          · simp at hs; subst hs; exact List.mem_cons_self _ _
        · intro s hs
          rcases List.mem_append.mp hs with hs | hs
          · exact List.mem_cons_of_mem e (h.allEx s hs)
          · simp at hs; subst hs; exact List.mem_cons_self _ _
        · rw [List.nodup_append]
          refine ⟨h.lmotNodup, by simp, ?_⟩
          intro s hs hse
          simp at hse
          subst hse
          exact hex (h.lmotEx s hs)
        · rw [List.nodup_append]
          refine ⟨h.allNodup, by simp, ?_⟩
          intro s hs hse
          simp at hse
          subst hse
          exact hex (h.allEx s hs)
        · intro s hs
          rcases List.mem_append.mp hs with hs | hs
          · exact h.lmotMem s hs
          · simp at hs; subst hs; exact he
        · intro s hs
          rcases List.mem_append.mp hs with hs | hs
          · exact h.allMem s hs
          · simp at hs; subst hs; exact he
      · rw [if_neg hlm]
        by_cases hnd : reLNdMatch e
        · rw [if_pos hnd]
          refine ⟨h.luMatch, h.lmotMatch, ?_, ?_, ?_, ?_, ?_, ?_, h.luNodup, h.lmotNodup,
            ?_, h.luMem, h.lmotMem, ?_⟩
          · intro s hs
            rcases List.mem_append.mp hs with hs | hs
            · exact h.allNe s hs
            · simp at hs; subst hs; exact reLNdMatch_ne_nil _ hnd
          · intro s hs
            exact List.mem_append.mpr (Or.inl (h.luAll s hs))
          · intro s hs
            exact List.mem_append.mpr (Or.inl (h.lmotAll s hs))
          · intro s hs
            exact List.mem_cons_of_mem e (h.luEx s hs)
          · intro s hs
            exact List.mem_cons_of_mem e (h.lmotEx s hs)
          · intro s hs
            rcases List.mem_append.mp hs with hs | hs
            · exact List.mem_cons_of_mem e (h.allEx s hs)
            · simp at hs; subst hs; exact List.mem_cons_self _ _
          · rw [List.nodup_append]
            refine ⟨h.allNodup, by simp, ?_⟩
            intro s hs hse
            simp at hse
            subst hse
            exact hex (h.allEx s hs)
          · intro s hs
            rcases List.mem_append.mp hs with hs | hs
            · exact h.allMem s hs
            · simp at hs; subst hs; exact he
        · rw [if_neg hnd]
          exact ⟨h.luMatch, h.lmotMatch, h.allNe, h.luAll, h.lmotAll,
            fun s hs => List.mem_cons_of_mem e (h.luEx s hs),
            fun s hs => List.mem_cons_of_mem e (h.lmotEx s hs),
            fun s hs => List.mem_cons_of_mem e (h.allEx s hs),
            h.luNodup, h.lmotNodup, h.allNodup, h.luMem, h.lmotMem, h.allMem⟩

theorem foldl_classify_inv (l : List GoStr) :
    ∀ (l' : List GoStr), (∀ e ∈ l', e ∈ l) → ∀ p, AccInv l p →
      AccInv l (l'.foldl classifyStep p) := by
  intro l'
  induction l' with
  | nil => intro _ p h; exact h
  | cons e l' ih =>
    intro hsub p h
    simp only [List.foldl_cons]
    exact ih (fun x hx => hsub x (List.mem_cons_of_mem e hx)) _
      (classifyStep_inv l p e (hsub e (List.mem_cons_self e l')) h)

theorem accInv_newGenerator (elements : List GoStr) :
    AccInv elements (elements.foldl classifyStep (⟨[], [], []⟩, [])) :=
  foldl_classify_inv elements elements (fun _ h => h) _
    (by constructor <;> simp)

/-- The facts about `NewGenerator`'s result that the claims rest on:
nonempty classes (after defaults), nonempty and duplicate-free elements,
and upper-case-initial exported leads. -/
structure GenOk (g : Generator) : Prop where
  luNe : g.lu ≠ []
  lmotNe : g.lmot ≠ []
  allNe : g.all ≠ []
  luNonempty : ∀ s ∈ g.lu, s ≠ []
  lmotNonempty : ∀ s ∈ g.lmot, s ≠ []
  allNonempty : ∀ s ∈ g.all, s ≠ []
  luHead : ∀ s ∈ g.lu, ∃ c rest, s = c :: rest ∧ isLu c = true
  luNodup : g.lu.Nodup
  lmotNodup : g.lmot.Nodup
  allNodup : g.all.Nodup

theorem reLuMatch_head (s : GoStr) (h : reLuMatch s = true) :
    ∃ c rest, s = c :: rest ∧ isLu c = true := by
  cases s with
  | nil => simp [reLuMatch] at h
  | cons c rest =>
    simp only [reLuMatch, Bool.and_eq_true] at h
    exact ⟨c, rest, rfl, h.1⟩

theorem newGenerator_ok (elements : List GoStr) : GenOk (NewGenerator elements) := by
  have hinv := accInv_newGenerator elements
  set q := (elements.foldl classifyStep (⟨[], [], []⟩, [])).1 with hq
  have hlu : (NewGenerator elements).lu = if q.lu.isEmpty then [['A']] else q.lu := rfl
  have hlmot : (NewGenerator elements).lmot = if q.lmot.isEmpty then [['_']] else q.lmot := rfl
  have hall : (NewGenerator elements).all =
      if q.all.isEmpty then
        (if q.lu.isEmpty then [['A']] else q.lu) ++ (if q.lmot.isEmpty then [['_']] else q.lmot)
      else q.all := rfl
  have hludef : ∀ s ∈ (NewGenerator elements).lu, s ∈ q.lu ∨ s = ['A'] := by
    intro s hs
    rw [hlu] at hs
    by_cases h : q.lu.isEmpty
    · rw [if_pos h] at hs; simp at hs; exact Or.inr hs
    · rw [if_neg h] at hs; exact Or.inl hs
  have hlmotdef : ∀ s ∈ (NewGenerator elements).lmot, s ∈ q.lmot ∨ s = ['_'] := by
    intro s hs
    rw [hlmot] at hs
    by_cases h : q.lmot.isEmpty
    · rw [if_pos h] at hs; simp at hs; exact Or.inr hs
    · rw [if_neg h] at hs; exact Or.inl hs
  have halldef : ∀ s ∈ (NewGenerator elements).all,
      s ∈ q.all ∨ s ∈ (NewGenerator elements).lu ∨ s ∈ (NewGenerator elements).lmot := by
    intro s hs
    rw [hall] at hs
    by_cases h : q.all.isEmpty
    · rw [if_pos h] at hs
      rcases List.mem_append.mp hs with hs | hs
      · exact Or.inr (Or.inl (by rw [hlu]; exact hs))
      · exact Or.inr (Or.inr (by rw [hlmot]; exact hs))
    · rw [if_neg h] at hs; exact Or.inl hs
  refine ⟨?_, ?_, ?_, ?_, ?_, ?_, ?_, ?_, ?_, ?_⟩
  · rw [hlu]
    by_cases h : q.lu.isEmpty
    · rw [if_pos h]; simp
    · rw [if_neg h]; simpa [List.isEmpty_iff] using h
  · rw [hlmot]
    by_cases h : q.lmot.isEmpty
    · rw [if_pos h]; simp
    · rw [if_neg h]; simpa [List.isEmpty_iff] using h
  · rw [hall]
    by_cases h : q.all.isEmpty
    · rw [if_pos h]
      intro hcontra
      obtain ⟨hc1, hc2⟩ := List.append_eq_nil.mp hcontra
      by_cases h3 : q.lmot.isEmpty
      · rw [if_pos h3] at hc2; simp at hc2
      · rw [if_neg h3] at hc2
        have h4 : q.lmot ≠ [] := by simpa [List.isEmpty_iff] using h3
        exact h4 hc2
    · rw [if_neg h]; simpa [List.isEmpty_iff] using h
  · intro s hs
    rcases hludef s hs with h | h
    · exact reLuMatch_ne_nil s (hinv.luMatch s h)
    · subst h; simp
  · intro s hs
    rcases hlmotdef s hs with h | h
    · exact reLlmotMatch_ne_nil s (hinv.lmotMatch s h)
    · subst h; simp
  · intro s hs
    rcases halldef s hs with h | h | h
    · exact hinv.allNe s h
    · rcases hludef s h with h | h
      · exact reLuMatch_ne_nil s (hinv.luMatch s h)
      · subst h; simp
    · rcases hlmotdef s h with h | h
      · exact reLlmotMatch_ne_nil s (hinv.lmotMatch s h)
      · subst h; simp
  · intro s hs
    rcases hludef s hs with h | h
    · exact reLuMatch_head s (hinv.luMatch s h)
    · subst h; exact ⟨'A', [], rfl, by decide⟩
  · rw [hlu]
    by_cases h : q.lu.isEmpty
    · rw [if_pos h]; simp
    · rw [if_neg h]; exact hinv.luNodup
  · rw [hlmot]
    by_cases h : q.lmot.isEmpty
    · rw [if_pos h]; simp
    · rw [if_neg h]; exact hinv.lmotNodup
  · rw [hall]
    by_cases h : q.all.isEmpty
    · rw [if_pos h]
      have hluNil : q.lu = [] := by
        rw [List.eq_nil_iff_forall_not_mem]
        intro s hs
        have := hinv.luAll s hs
        rw [List.isEmpty_iff.mp h] at this
        simp at this
      have hlmotNil : q.lmot = [] := by
        rw [List.eq_nil_iff_forall_not_mem]
        intro s hs
        have := hinv.lmotAll s hs
        rw [List.isEmpty_iff.mp h] at this
        simp at this
      rw [hluNil, hlmotNil]
      simp
    · rw [if_neg h]; exact hinv.allNodup

/-- When every seed element is a single character, so is every element
retained (or defaulted) by `NewGenerator`. -/
theorem newGenerator_single (elements : List GoStr)
    (h1 : ∀ e ∈ elements, e.length = 1) :
    (∀ s ∈ (NewGenerator elements).lu, s.length = 1) ∧
    (∀ s ∈ (NewGenerator elements).lmot, s.length = 1) ∧
    (∀ s ∈ (NewGenerator elements).all, s.length = 1) := by
  have hinv := accInv_newGenerator elements
  set q := (elements.foldl classifyStep (⟨[], [], []⟩, [])).1 with hq
  have hlu : (NewGenerator elements).lu = if q.lu.isEmpty then [['A']] else q.lu := rfl
  have hlmot : (NewGenerator elements).lmot = if q.lmot.isEmpty then [['_']] else q.lmot := rfl
  have hall : (NewGenerator elements).all =
      if q.all.isEmpty then
        (if q.lu.isEmpty then [['A']] else q.lu) ++ (if q.lmot.isEmpty then [['_']] else q.lmot)
      else q.all := rfl
  have hluOne : ∀ s ∈ (NewGenerator elements).lu, s.length = 1 := by
    intro s hs
    rw [hlu] at hs
    by_cases h : q.lu.isEmpty
    · rw [if_pos h] at hs; simp at hs; subst hs; rfl
    · rw [if_neg h] at hs; exact h1 s (hinv.luMem s hs)
  have hlmotOne : ∀ s ∈ (NewGenerator elements).lmot, s.length = 1 := by
    intro s hs
    rw [hlmot] at hs
    by_cases h : q.lmot.isEmpty
    · rw [if_pos h] at hs; simp at hs; subst hs; rfl
    · rw [if_neg h] at hs; exact h1 s (hinv.lmotMem s hs)
  refine ⟨hluOne, hlmotOne, ?_⟩
  intro s hs
  rw [hall] at hs
  by_cases h : q.all.isEmpty
  · rw [if_pos h] at hs
    rcases List.mem_append.mp hs with hs | hs
    · exact hluOne s (by rw [hlu]; exact hs)
    · exact hlmotOne s (by rw [hlmot]; exact hs)
  · rw [if_neg h] at hs
    exact h1 s (hinv.allMem s hs)

/-- Reachable odometer states: nonempty, the last digit indexing `d0`
(bound `base0`), every other digit indexing `all` (bound `base`). -/
def validStack (base0 base : Nat) : List Nat → Bool
  | [] => false
  | [d] => decide (d < base0)
  | d :: rest => decide (d < base) && validStack base0 base rest

/-- Mixed-radix value of a stack: the head is least significant, digits
below the last have radix `base`. -/
def stackVal (base : Nat) : List Nat → Nat
  | [] => 0
  | [d] => d
  | d :: rest => d + base * stackVal base rest

/-- Number of odometer states with fewer than `n` digits. -/
def offset (base0 base : Nat) : Nat → Nat
  | 0 => 0
  | 1 => 0
  | n + 2 => offset base0 base (n + 1) + base0 * base ^ n

/-- Position of a stack in the odometer's enumeration order. -/
def sigma (base0 base : Nat) (s : List Nat) : Nat :=
  stackVal base s + offset base0 base s.length

theorem validStack_ne_nil (base0 base : Nat) (s : List Nat)
    (h : validStack base0 base s = true) : s ≠ [] := by
  cases s with
  | nil => simp [validStack] at h
  | cons d rest => simp

theorem validStack_cons (base0 base d : Nat) (t : List Nat) (ht : t ≠ []) :
    validStack base0 base (d :: t) = (decide (d < base) && validStack base0 base t) := by
  cases t with
  | nil => exact absurd rfl ht
  | cons r rest => rfl

theorem stackVal_cons (base d : Nat) (t : List Nat) (ht : t ≠ []) :
    stackVal base (d :: t) = d + base * stackVal base t := by
  cases t with
  | nil => exact absurd rfl ht
  | cons r rest => rfl

theorem stackVal_succ_le (base0 base : Nat) :
    ∀ s, validStack base0 base s = true →
      stackVal base s + 1 ≤ base0 * base ^ (s.length - 1)
  | [], h => by simp [validStack] at h
  | [d], h => by
    have hd : d < base0 := by simpa [validStack] using h
    simpa [stackVal] using hd
  | d :: r :: rest, h => by
    rw [validStack_cons base0 base d (r :: rest) (by simp), Bool.and_eq_true,
      decide_eq_true_eq] at h
    obtain ⟨hd, hrest⟩ := h
    have ih := stackVal_succ_le base0 base (r :: rest) hrest
    have hmul : base * (stackVal base (r :: rest) + 1) =
        base * stackVal base (r :: rest) + base := by ring
    have key2 : base * (stackVal base (r :: rest) + 1) ≤
        base * (base0 * base ^ rest.length) :=
      Nat.mul_le_mul_left base (by simpa using ih)
    have key3 : base * (base0 * base ^ rest.length) = base0 * base ^ (rest.length + 1) := by
      ring
    show d + base * stackVal base (r :: rest) + 1 ≤ base0 * base ^ (rest.length + 1)
    omega

theorem incIndexesAux_zero (base0 base : Nat) (hb0 : 0 < base0) (hb : 0 < base) :
    ∀ s, validStack base0 base s = true → incIndexesAux base0 base s 0 = s
  | [d], h => by
    have hd : d < base0 := by simpa [validStack] using h
    have hno : ¬ (base0 - 1 < d + 0) := by omega
    show (if base0 - 1 < d + 0 then ([0, 0] : List Nat) else [d + 0]) = [d]
    rw [if_neg hno]
    simp
  | d :: r :: rest, h => by
    rw [validStack_cons base0 base d (r :: rest) (by simp), Bool.and_eq_true,
      decide_eq_true_eq] at h
    obtain ⟨hd, hrest⟩ := h
    have hno : ¬ (base - 1 < d + 0) := by omega
    show (if base - 1 < d + 0 then 0 :: incIndexesAux base0 base (r :: rest) 1
      else (d + 0) :: incIndexesAux base0 base (r :: rest) 0) = d :: r :: rest
    rw [if_neg hno, incIndexesAux_zero base0 base hb0 hb (r :: rest) hrest]
    simp

theorem incIndexesAux_spec (base0 base : Nat) (hb0 : 0 < base0) (hb : 0 < base) :
    ∀ s, validStack base0 base s = true →
      validStack base0 base (incIndexesAux base0 base s 1) = true ∧
      ((incIndexesAux base0 base s 1).length = s.length ∧
        stackVal base (incIndexesAux base0 base s 1) = stackVal base s + 1 ∨
       (incIndexesAux base0 base s 1).length = s.length + 1 ∧
        stackVal base (incIndexesAux base0 base s 1) = 0 ∧
        stackVal base s + 1 = base0 * base ^ (s.length - 1))
  | [], h => by simp [validStack] at h
  | [d], h => by
    have hd : d < base0 := by simpa [validStack] using h
    by_cases hov : base0 - 1 < d + 1
    · have heq : incIndexesAux base0 base [d] 1 = [0, 0] := by
        show (if base0 - 1 < d + 1 then ([0, 0] : List Nat) else [d + 1]) = [0, 0]
        rw [if_pos hov]
      rw [heq]
      refine ⟨by simp [validStack, hb0, hb], Or.inr ⟨rfl, rfl, ?_⟩⟩
      show d + 1 = base0 * base ^ 0
      simp
      omega
    · have heq : incIndexesAux base0 base [d] 1 = [d + 1] := by
        show (if base0 - 1 < d + 1 then ([0, 0] : List Nat) else [d + 1]) = [d + 1]
        rw [if_neg hov]
      rw [heq]
      have hlt : d + 1 < base0 := by omega
      exact ⟨by simpa [validStack] using hlt, Or.inl ⟨rfl, rfl⟩⟩
  | d :: r :: rest, h => by
    rw [validStack_cons base0 base d (r :: rest) (by simp), Bool.and_eq_true,
      decide_eq_true_eq] at h
    obtain ⟨hd, hrest⟩ := h
    by_cases hov : base - 1 < d + 1
    · have heq : incIndexesAux base0 base (d :: r :: rest) 1 =
          0 :: incIndexesAux base0 base (r :: rest) 1 := by
        show (if base - 1 < d + 1 then 0 :: incIndexesAux base0 base (r :: rest) 1
          else (d + 1) :: incIndexesAux base0 base (r :: rest) 0) =
          0 :: incIndexesAux base0 base (r :: rest) 1
        rw [if_pos hov]
      rw [heq]
      obtain ⟨ihv, ihd⟩ := incIndexesAux_spec base0 base hb0 hb (r :: rest) hrest
      have htne : incIndexesAux base0 base (r :: rest) 1 ≠ [] :=
        validStack_ne_nil base0 base _ ihv
      have hdd : d = base - 1 := by omega
      constructor
      · rw [validStack_cons base0 base 0 _ htne, Bool.and_eq_true, decide_eq_true_eq]
        exact ⟨hb, ihv⟩
      · rw [stackVal_cons base 0 _ htne]
        rcases ihd with ⟨hlen, hval⟩ | ⟨hlen, hval, hmax⟩
        · refine Or.inl ⟨by simp [hlen], ?_⟩
          rw [hval]
          have hv1 : stackVal base (d :: r :: rest) = d + base * stackVal base (r :: rest) :=
            rfl
          rw [hv1]
          have : base * (stackVal base (r :: rest) + 1) =
              base * stackVal base (r :: rest) + base := by ring
          omega
        · refine Or.inr ⟨by simp [hlen], by simp [hval], ?_⟩
          have hv1 : stackVal base (d :: r :: rest) = d + base * stackVal base (r :: rest) :=
            rfl
          have hexp : (r :: rest).length - 1 = rest.length := by simp
          rw [hexp] at hmax
          have hlen2 : (d :: r :: rest).length - 1 = rest.length + 1 := by simp
          rw [hv1, hlen2]
          have hstep : base * (stackVal base (r :: rest) + 1) =
              base * stackVal base (r :: rest) + base := by ring
          have hpow : base * (base0 * base ^ rest.length) =
              base0 * base ^ (rest.length + 1) := by
            ring
          calc d + base * stackVal base (r :: rest) + 1
              = base * (stackVal base (r :: rest) + 1) := by omega
            _ = base * (base0 * base ^ rest.length) := by rw [hmax]
            _ = base0 * base ^ (rest.length + 1) := hpow
    · have heq : incIndexesAux base0 base (d :: r :: rest) 1 =
          (d + 1) :: incIndexesAux base0 base (r :: rest) 0 := by
        show (if base - 1 < d + 1 then 0 :: incIndexesAux base0 base (r :: rest) 1
          else (d + 1) :: incIndexesAux base0 base (r :: rest) 0) =
          (d + 1) :: incIndexesAux base0 base (r :: rest) 0
        rw [if_neg hov]
      rw [heq, incIndexesAux_zero base0 base hb0 hb (r :: rest) hrest]
      have hlt : d + 1 < base := by omega
      constructor
      · rw [validStack_cons base0 base (d + 1) (r :: rest) (by simp), Bool.and_eq_true,
          decide_eq_true_eq]
        exact ⟨hlt, hrest⟩
      · refine Or.inl ⟨rfl, ?_⟩
        show d + 1 + base * stackVal base (r :: rest) =
          d + base * stackVal base (r :: rest) + 1
        omega

theorem offset_le_succ (base0 base n : Nat) :
    offset base0 base n ≤ offset base0 base (n + 1) := by
  match n with
  | 0 => simp [offset]
  | 1 => simp [offset]
  | m + 2 =>
    show offset base0 base (m + 2) ≤ offset base0 base (m + 2) + base0 * base ^ (m + 1)
    omega

theorem offset_mono (base0 base : Nat) : Monotone (offset base0 base) :=
  monotone_nat_of_le_succ (offset_le_succ base0 base)

theorem offset_succ_of_pos (base0 base n : Nat) (hn : 0 < n) :
    offset base0 base (n + 1) = offset base0 base n + base0 * base ^ (n - 1) := by
  match n, hn with
  | m + 1, _ => rfl

theorem incIndexes_sigma (base0 base : Nat) (hb0 : 0 < base0) (hb : 0 < base)
    (s : List Nat) (hv : validStack base0 base s = true) :
    ∃ s', incIndexes base0 base s = some s' ∧ validStack base0 base s' = true ∧
      sigma base0 base s' = sigma base0 base s + 1 := by
  have hne : s ≠ [] := validStack_ne_nil base0 base s hv
  have hsome : incIndexes base0 base s = some (incIndexesAux base0 base s 1) := by
    unfold incIndexes
    have hguard : (s.isEmpty || base0 == 0 || base == 0) = false := by
      simp [List.isEmpty_iff, hne]
      omega
    rw [hguard]
    rfl
  obtain ⟨hv', hd⟩ := incIndexesAux_spec base0 base hb0 hb s hv
  refine ⟨incIndexesAux base0 base s 1, hsome, hv', ?_⟩
  unfold sigma
  rcases hd with ⟨hlen, hval⟩ | ⟨hlen, hval, hmax⟩
  · rw [hlen, hval]
    omega
  · rw [hlen, hval]
    have hpos : 0 < s.length := List.length_pos.mpr hne
    rw [offset_succ_of_pos base0 base s.length hpos]
    omega

theorem validStack_bounds (base0 base : Nat) :
    ∀ s, validStack base0 base s = true →
      s.getLast?.getD 0 < base0 ∧ ∀ x ∈ s.dropLast, x < base
  | [], h => by simp [validStack] at h
  | [d], h => by
    have hd : d < base0 := by simpa [validStack] using h
    exact ⟨by simpa using hd, by simp⟩
  | d :: r :: rest, h => by
    rw [validStack_cons base0 base d (r :: rest) (by simp), Bool.and_eq_true,
      decide_eq_true_eq] at h
    obtain ⟨hd, hrest⟩ := h
    obtain ⟨ih1, ih2⟩ := validStack_bounds base0 base (r :: rest) hrest
    refine ⟨ih1, ?_⟩
    intro x hx
    have hx' : x ∈ d :: (r :: rest).dropLast := hx
    rcases List.mem_cons.mp hx' with hx' | hx'
    · subst hx'; exact hd
    · exact ih2 x hx'

theorem foldl_append_flatten :
    ∀ (l : List GoStr) (init : GoStr),
      l.foldl (fun acc s => acc ++ s) init = init ++ l.flatten
  | [], init => by simp
  | e :: l, init => by
    simp only [List.foldl_cons, List.flatten_cons]
    rw [foldl_append_flatten l (init ++ e), List.append_assoc]

theorem sum_ge_length (l : List Nat) (h : ∀ x ∈ l, 1 ≤ x) : l.length ≤ l.sum := by
  induction l with
  | nil => simp
  | cons x l ih =>
    simp only [List.length_cons, List.sum_cons]
    have h1 : 1 ≤ x := h x (List.mem_cons_self _ _)
    have h2 : l.length ≤ l.sum := ih (fun y hy => h y (List.mem_cons_of_mem x hy))
    omega

theorem candidate_length_ge (d0 allList : List GoStr)
    (hd0 : ∀ x ∈ d0, x ≠ []) (hall : ∀ x ∈ allList, x ≠ [])
    (s : List Nat) (hv : validStack d0.length allList.length s = true) :
    s.length ≤ (candidate d0 allList s).length := by
  obtain ⟨hlast, hdrop⟩ := validStack_bounds d0.length allList.length s hv
  have hne : s ≠ [] := validStack_ne_nil _ _ s hv
  unfold candidate
  rw [foldl_append_flatten, List.length_append]
  have hinit : 1 ≤ (d0.getD (s.getLast?.getD 0) []).length := by
    rw [List.getD_eq_getElem d0 [] hlast]
    have hmem : d0[s.getLast?.getD 0] ∈ d0 := List.getElem_mem hlast
    exact List.length_pos.mpr (hd0 _ hmem)
  have hflat : s.dropLast.length ≤
      ((s.dropLast.reverse.map (fun i => allList.getD i [])).flatten).length := by
    rw [List.length_flatten]
    have hlen : (s.dropLast.reverse.map (fun i => allList.getD i [])).map List.length
        = s.dropLast.reverse.map (fun i => (allList.getD i []).length) := by
      rw [List.map_map]
      rfl
    calc s.dropLast.length = s.dropLast.reverse.length := (List.length_reverse _).symm
      _ ≤ ((s.dropLast.reverse.map (fun i => allList.getD i [])).map List.length).sum := by
        rw [hlen]
        have := sum_ge_length (s.dropLast.reverse.map (fun i => (allList.getD i []).length))
          (by
            intro x hx
            obtain ⟨i, hi, hix⟩ := List.mem_map.mp hx
            have hib : i < allList.length := hdrop i (List.mem_reverse.mp hi)
            rw [List.getD_eq_getElem allList [] hib] at hix
            have hmem : allList[i] ∈ allList := List.getElem_mem hib
            rw [← hix]
            exact List.length_pos.mpr (hall _ hmem))
        simpa using this
  have hslen : s.length = s.dropLast.length + 1 := by
    rw [List.length_dropLast]
    have := List.length_pos.mpr hne
    omega
  omega

/-- Length of the longest forbidden id (0 when none). -/
def maxLen (l : List GoStr) : Nat := (l.map List.length).foldr max 0

theorem length_le_maxLen (l : List GoStr) (x : GoStr) (h : x ∈ l) :
    x.length ≤ maxLen l := by
  induction l with
  | nil => simp at h
  | cons e l ih =>
    rcases List.mem_cons.mp h with h | h
    · subst h
      show x.length ≤ max x.length _
      exact le_max_left _ _
    · calc x.length ≤ maxLen l := ih h
        _ ≤ max e.length (maxLen l) := le_max_right _ _

theorem genHelperFuel_not_forbidden (g : Generator) (d0 forbidden : List GoStr) :
    ∀ fuel s id s', genHelperFuel g d0 forbidden fuel s = some (id, s') →
      forbidden.contains id = false := by
  intro fuel
  induction fuel with
  | zero => intro s id s' h; simp [genHelperFuel] at h
  | succ fuel ih =>
    intro s id s' h
    unfold genHelperFuel at h
    cases hinc : incIndexes d0.length g.all.length s with
    | none => rw [hinc] at h; simp at h
    | some s1 =>
      rw [hinc] at h
      simp only at h
      by_cases hf : forbidden.contains (candidate d0 g.all s)
      · rw [if_pos hf] at h
        exact ih s1 id s' h
      · rw [if_neg hf] at h
        simp only [Option.some.injEq, Prod.mk.injEq] at h
        rw [← h.1]
        exact Bool.not_eq_true _ ▸ (by simpa using hf)

theorem genHelperFuel_spec (g : Generator) (d0 forbidden : List GoStr)
    (hb0 : 0 < d0.length) (hb : 0 < g.all.length) :
    ∀ fuel s id s', validStack d0.length g.all.length s = true →
      genHelperFuel g d0 forbidden fuel s = some (id, s') →
      validStack d0.length g.all.length s' = true ∧
      ∃ u, validStack d0.length g.all.length u = true ∧ id = candidate d0 g.all u ∧
        sigma d0.length g.all.length s ≤ sigma d0.length g.all.length u ∧
        sigma d0.length g.all.length u < sigma d0.length g.all.length s' := by
  intro fuel
  induction fuel with
  | zero => intro s id s' hv h; simp [genHelperFuel] at h
  | succ fuel ih =>
    intro s id s' hv h
    obtain ⟨s1, hinc, hv1, hsig⟩ := incIndexes_sigma d0.length g.all.length hb0 hb s hv
    unfold genHelperFuel at h
    rw [hinc] at h
    simp only at h
    by_cases hf : forbidden.contains (candidate d0 g.all s)
    · rw [if_pos hf] at h
      obtain ⟨hv', u, hu, hid, hle, hlt⟩ := ih s1 id s' hv1 h
      exact ⟨hv', u, hu, hid, by omega, hlt⟩
    · rw [if_neg hf] at h
      simp only [Option.some.injEq, Prod.mk.injEq] at h
      obtain ⟨hid, hs'⟩ := h
      subst hs'
      exact ⟨hv1, s, hv, hid.symm, le_refl _, by omega⟩

theorem genHelperFuel_terminates (g : Generator) (d0 forbidden : List GoStr)
    (hb0 : 0 < d0.length) (hb : 0 < g.all.length)
    (hd0 : ∀ x ∈ d0, x ≠ []) (hall : ∀ x ∈ g.all, x ≠ []) :
    ∀ (k : Nat) (s : List Nat), validStack d0.length g.all.length s = true →
      offset d0.length g.all.length (maxLen forbidden + 1) ≤
        sigma d0.length g.all.length s + k →
      ∃ r, genHelperFuel g d0 forbidden (k + 1) s = some r := by
  intro k
  induction k with
  | zero =>
    intro s hv hoff
    simp only [Nat.add_zero] at hoff
    have hlen : maxLen forbidden + 1 ≤ s.length := by
      by_contra hcon
      have h1 : s.length + 1 ≤ maxLen forbidden + 1 := by omega
      have h2 : offset d0.length g.all.length (s.length + 1) ≤
          offset d0.length g.all.length (maxLen forbidden + 1) :=
        offset_mono _ _ h1
      have h3 : sigma d0.length g.all.length s <
          offset d0.length g.all.length (s.length + 1) := by
        unfold sigma
        have hne : s ≠ [] := validStack_ne_nil _ _ s hv
        have hpos : 0 < s.length := List.length_pos.mpr hne
        rw [offset_succ_of_pos _ _ s.length hpos]
        have := stackVal_succ_le d0.length g.all.length s hv
        omega
      omega
    have hclen : maxLen forbidden + 1 ≤ (candidate d0 g.all s).length := by
      have := candidate_length_ge d0 g.all hd0 hall s hv
      omega
    have hnotin : forbidden.contains (candidate d0 g.all s) = false := by
      by_contra hcon
      have hmem : candidate d0 g.all s ∈ forbidden := by
        have : forbidden.contains (candidate d0 g.all s) = true := by
          revert hcon
          cases forbidden.contains (candidate d0 g.all s) <;> simp
        exact List.elem_iff.mp this
      have := length_le_maxLen forbidden _ hmem
      omega
    obtain ⟨s1, hinc, hv1, hsig⟩ := incIndexes_sigma d0.length g.all.length hb0 hb s hv
    refine ⟨(candidate d0 g.all s, s1), ?_⟩
    unfold genHelperFuel
    rw [hinc]
    simp only
    have hcond : ¬ (forbidden.contains (candidate d0 g.all s) = true) := by
      intro hc
      rw [hc] at hnotin
      exact absurd hnotin (by decide)
    rw [if_neg hcond]
  | succ k ih =>
    intro s hv hoff
    obtain ⟨s1, hinc, hv1, hsig⟩ := incIndexes_sigma d0.length g.all.length hb0 hb s hv
    by_cases hf : forbidden.contains (candidate d0 g.all s)
    · obtain ⟨r, hr⟩ := ih s1 hv1 (by omega)
      refine ⟨r, ?_⟩
      show genHelperFuel g d0 forbidden (k + 1 + 1) s = some r
      unfold genHelperFuel
      rw [hinc]
      simp only
      rw [if_pos hf]
      exact hr
    · refine ⟨(candidate d0 g.all s, s1), ?_⟩
      unfold genHelperFuel
      rw [hinc]
      simp only
      rw [if_neg hf]

theorem candidate_head_isLu (d0 allList : List GoStr)
    (hhead : ∀ x ∈ d0, ∃ c r, x = c :: r ∧ isLu c = true)
    (s : List Nat) (hv : validStack d0.length allList.length s = true) :
    ∃ c r, candidate d0 allList s = c :: r ∧ isLu c = true := by
  obtain ⟨hlast, _⟩ := validStack_bounds d0.length allList.length s hv
  unfold candidate
  rw [foldl_append_flatten]
  rw [List.getD_eq_getElem d0 [] hlast]
  obtain ⟨c, r, hx, hc⟩ := hhead _ (List.getElem_mem hlast)
  refine ⟨c, r ++ (s.dropLast.reverse.map (fun i => allList.getD i [])).flatten, ?_, hc⟩
  rw [hx]
  rfl

/-- C10: for every generator built by `NewGenerator` — whose leading classes
and continuation list are never empty and whose elements are nonempty —
every call of the `next` closures of `NewExported` and `NewUnexported`
terminates on every reachable odometer state for every finite forbid set:
some fuel makes the candidate loop of `genHelper` return, because the
candidate length grows without bound past the length of every forbidden
name. -/
theorem generator_next_terminates (elements forbidden user : List GoStr) (s t : List Nat)
    (hs : validStack (NewGenerator elements).lu.length
      (NewGenerator elements).all.length s = true)
    (ht : validStack (NewGenerator elements).lmot.length
      (NewGenerator elements).all.length t = true) :
    (∃ fuel r, genHelperFuel (NewGenerator elements) (NewGenerator elements).lu
      forbidden fuel s = some r) ∧
    (∃ fuel r, genHelperFuel (NewGenerator elements) (NewGenerator elements).lmot
      (forbiddenUnexported user) fuel t = some r) := by
  have hok := newGenerator_ok elements
  have hb : 0 < (NewGenerator elements).all.length := List.length_pos.mpr hok.allNe
  constructor
  · have hb0 : 0 < (NewGenerator elements).lu.length := List.length_pos.mpr hok.luNe
    obtain ⟨r, hr⟩ := genHelperFuel_terminates (NewGenerator elements)
      (NewGenerator elements).lu forbidden hb0 hb hok.luNonempty hok.allNonempty
      (offset (NewGenerator elements).lu.length (NewGenerator elements).all.length
        (maxLen forbidden + 1)) s hs (by omega)
    exact ⟨_, r, hr⟩
  · have hb0 : 0 < (NewGenerator elements).lmot.length := List.length_pos.mpr hok.lmotNe
    obtain ⟨r, hr⟩ := genHelperFuel_terminates (NewGenerator elements)
      (NewGenerator elements).lmot (forbiddenUnexported user) hb0 hb hok.lmotNonempty
      hok.allNonempty
      (offset (NewGenerator elements).lmot.length (NewGenerator elements).all.length
        (maxLen (forbiddenUnexported user) + 1)) t ht (by omega)
    exact ⟨_, r, hr⟩

/-- Witness for `generator_next_terminates` on the generator seeded with
`A` and the initial odometer state `[0]`. -/
theorem generator_next_terminates_witness :
    (∃ fuel r, genHelperFuel (NewGenerator [['A']]) (NewGenerator [['A']]).lu
      [] fuel [0] = some r) ∧
    (∃ fuel r, genHelperFuel (NewGenerator [['A']]) (NewGenerator [['A']]).lmot
      (forbiddenUnexported []) fuel [0] = some r) :=
  generator_next_terminates [['A']] [] [] [0] [0] (by decide) (by decide)

/-- Every reserved word starts with a character outside `Lu`. -/
theorem reserved_heads_not_upper :
    ∀ w ∈ reserved, w.head?.all (fun c => !isLu c) = true := by
  decide

/-- C9: ids returned by the `next` closures never collide with the
language-reserved list: an exported id starts with an upper-case leading
character (no reserved word does), and an unexported id is filtered
against `forbiddenUnexported`, which contains every reserved word. -/
theorem generator_never_reserved (elements user : List GoStr) (fuel1 fuel2 : Nat)
    (s t s' t' : List Nat) (id1 id2 : GoStr)
    (hs : validStack (NewGenerator elements).lu.length
      (NewGenerator elements).all.length s = true)
    (h1 : genHelperFuel (NewGenerator elements) (NewGenerator elements).lu user fuel1 s
      = some (id1, s'))
    (h2 : genHelperFuel (NewGenerator elements) (NewGenerator elements).lmot
      (forbiddenUnexported user) fuel2 t = some (id2, t')) :
    id1 ∉ reserved ∧ id2 ∉ reserved := by
  have hok := newGenerator_ok elements
  constructor
  · have hb0 : 0 < (NewGenerator elements).lu.length := List.length_pos.mpr hok.luNe
    have hb : 0 < (NewGenerator elements).all.length := List.length_pos.mpr hok.allNe
    obtain ⟨-, u, hu, hid, -, -⟩ := genHelperFuel_spec (NewGenerator elements)
      (NewGenerator elements).lu user hb0 hb fuel1 s id1 s' hs h1
    obtain ⟨c, r, hcr, hc⟩ := candidate_head_isLu (NewGenerator elements).lu
      (NewGenerator elements).all hok.luHead u hu
    intro hmem
    have := reserved_heads_not_upper id1 hmem
    rw [hid, hcr] at this
    simp at this
    rw [this] at hc
    exact absurd hc (by decide)
  · have hnf := genHelperFuel_not_forbidden (NewGenerator elements)
      (NewGenerator elements).lmot (forbiddenUnexported user) fuel2 t id2 t' h2
    intro hmem
    have hmem2 : id2 ∈ forbiddenUnexported user := List.mem_append.mpr (Or.inl hmem)
    have hco : (forbiddenUnexported user).contains id2 = true :=
      List.elem_iff.mpr hmem2
    rw [hco] at hnf
    exact absurd hnf (by decide)

/-- Witness for `generator_never_reserved`: the first exported and
unexported ids of the generator seeded with `A` and `b`. -/
theorem generator_never_reserved_witness :
    "A".data ∉ reserved ∧ "b".data ∉ reserved :=
  generator_never_reserved [['A'], ['b']] [] 1 1 [0] [0] [0, 0] [0, 0] "A".data "b".data
    (by decide) (by decide) (by decide)

theorem flatten_singleton_map (f : Nat → GoStr) (cf : Nat → Char) (l : List Nat)
    (h : ∀ i ∈ l, f i = [cf i]) : (l.map f).flatten = l.map cf := by
  induction l with
  | nil => rfl
  | cons x l ih =>
    simp only [List.map_cons, List.flatten_cons, h x (List.mem_cons_self _ _)]
    rw [ih (fun i hi => h i (List.mem_cons_of_mem _ hi))]
    rfl

/-- With single-character elements, the candidate is one lead character
followed by one character per continuation digit. -/
theorem candidate_single_char (d0 allList : List GoStr)
    (hd0one : ∀ x ∈ d0, x.length = 1) (hallone : ∀ x ∈ allList, x.length = 1)
    (s : List Nat) (hv : validStack d0.length allList.length s = true) :
    candidate d0 allList s =
      (d0.getD (s.getLast?.getD 0) []).headD 'A' ::
        s.dropLast.reverse.map (fun i => (allList.getD i []).headD 'A') := by
  obtain ⟨hlast, hdrop⟩ := validStack_bounds d0.length allList.length s hv
  unfold candidate
  rw [foldl_append_flatten]
  rw [flatten_singleton_map (fun i => allList.getD i [])
    (fun i => (allList.getD i []).headD 'A') s.dropLast.reverse ?h]
  case h =>
    intro i hi
    have hib : i < allList.length := hdrop i (List.mem_reverse.mp hi)
    show allList.getD i [] = [(allList.getD i []).headD 'A']
    rw [List.getD_eq_getElem allList [] hib]
    obtain ⟨a, ha⟩ := List.length_eq_one.mp (hallone _ (List.getElem_mem hib))
    rw [ha]
    rfl
  rw [List.getD_eq_getElem d0 [] hlast]
  obtain ⟨a, ha⟩ := List.length_eq_one.mp (hd0one _ (List.getElem_mem hlast))
  rw [ha]
  rfl

theorem single_char_getD_inj (l : List GoStr) (hone : ∀ x ∈ l, x.length = 1)
    (hnd : l.Nodup) (i j : Nat) (hi : i < l.length) (hj : j < l.length)
    (h : (l.getD i []).headD 'A' = (l.getD j []).headD 'A') : i = j := by
  rw [List.getD_eq_getElem l [] hi, List.getD_eq_getElem l [] hj] at h
  obtain ⟨a, ha⟩ := List.length_eq_one.mp (hone _ (List.getElem_mem hi))
  obtain ⟨b, hb⟩ := List.length_eq_one.mp (hone _ (List.getElem_mem hj))
  rw [ha, hb] at h
  simp only [List.headD] at h
  have : l[i] = l[j] := by rw [ha, hb, h]
  exact (List.Nodup.getElem_inj_iff hnd).mp this

theorem map_bounded_inj (cf : Nat → Char) (bound : Nat)
    (hinj : ∀ i < bound, ∀ j < bound, cf i = cf j → i = j) :
    ∀ l1 l2 : List Nat, (∀ x ∈ l1, x < bound) → (∀ x ∈ l2, x < bound) →
      l1.map cf = l2.map cf → l1 = l2
  | [], [], _, _, _ => rfl
  | [], x :: l2, _, _, h => by simp at h
  | x :: l1, [], _, _, h => by simp at h
  | x :: l1, y :: l2, h1, h2, h => by
    simp only [List.map_cons, List.cons.injEq] at h
    have hx : x = y := hinj x (h1 x (List.mem_cons_self _ _)) y
      (h2 y (List.mem_cons_self _ _)) h.1
    rw [hx, map_bounded_inj cf bound hinj l1 l2
      (fun z hz => h1 z (List.mem_cons_of_mem _ hz))
      (fun z hz => h2 z (List.mem_cons_of_mem _ hz)) h.2]

/-- With single-character, duplicate-free element lists, distinct valid
odometer states build distinct candidates. -/
theorem candidate_inj (d0 allList : List GoStr)
    (hd0one : ∀ x ∈ d0, x.length = 1) (hallone : ∀ x ∈ allList, x.length = 1)
    (hd0nd : d0.Nodup) (hallnd : allList.Nodup)
    (u v : List Nat) (hu : validStack d0.length allList.length u = true)
    (hv : validStack d0.length allList.length v = true) (hne : u ≠ v) :
    candidate d0 allList u ≠ candidate d0 allList v := by
  intro heq
  rw [candidate_single_char d0 allList hd0one hallone u hu,
    candidate_single_char d0 allList hd0one hallone v hv] at heq
  simp only [List.cons.injEq] at heq
  obtain ⟨hhead, htail⟩ := heq
  obtain ⟨hulast, hudrop⟩ := validStack_bounds d0.length allList.length u hu
  obtain ⟨hvlast, hvdrop⟩ := validStack_bounds d0.length allList.length v hv
  have hlasteq : u.getLast?.getD 0 = v.getLast?.getD 0 :=
    single_char_getD_inj d0 hd0one hd0nd _ _ hulast hvlast hhead
  have hdropeq : u.dropLast = v.dropLast := by
    have := map_bounded_inj (fun i => (allList.getD i []).headD 'A') allList.length
      (fun i hi j hj h => single_char_getD_inj allList hallone hallnd i j hi hj h)
      u.dropLast.reverse v.dropLast.reverse
      (fun x hx => hudrop x (List.mem_reverse.mp hx))
      (fun x hx => hvdrop x (List.mem_reverse.mp hx)) htail
    exact List.reverse_injective this
  have hune : u ≠ [] := validStack_ne_nil _ _ u hu
  have hvne : v ≠ [] := validStack_ne_nil _ _ v hv
  apply hne
  have hu2 : u.dropLast ++ [u.getLast hune] = u := List.dropLast_concat_getLast hune
  have hv2 : v.dropLast ++ [v.getLast hvne] = v := List.dropLast_concat_getLast hvne
  rw [← hu2, ← hv2, hdropeq]
  have hlast2 : u.getLast hune = v.getLast hvne := by
    have h1 : u.getLast? = some (u.getLast hune) := List.getLast?_eq_getLast u hune
    have h2 : v.getLast? = some (v.getLast hvne) := List.getLast?_eq_getLast v hvne
    rw [h1, h2] at hlasteq
    simpa using hlasteq
  rw [hlast2]

theorem genOutputs_nodup_aux (g : Generator) (d0 forbidden : List GoStr) (fuel : Nat)
    (hb0 : 0 < d0.length) (hb : 0 < g.all.length)
    (hd0one : ∀ x ∈ d0, x.length = 1) (hallone : ∀ x ∈ g.all, x.length = 1)
    (hd0nd : d0.Nodup) (hallnd : g.all.Nodup) :
    ∀ n s, validStack d0.length g.all.length s = true →
      (genOutputs g d0 forbidden fuel n s).Nodup ∧
      (∀ id ∈ genOutputs g d0 forbidden fuel n s,
        ∃ u, validStack d0.length g.all.length u = true ∧
          sigma d0.length g.all.length s ≤ sigma d0.length g.all.length u ∧
          id = candidate d0 g.all u) := by
  intro n
  induction n with
  | zero => intro s hv; exact ⟨List.nodup_nil, by simp [genOutputs]⟩
  | succ n ih =>
    intro s hv
    unfold genOutputs
    cases hcall : genHelperFuel g d0 forbidden fuel s with
    | none => exact ⟨List.nodup_nil, by simp⟩
    | some r =>
      obtain ⟨id, s'⟩ := r
      obtain ⟨hv', u0, hu0, hid0, hle0, hlt0⟩ :=
        genHelperFuel_spec g d0 forbidden hb0 hb fuel s id s' hv hcall
      obtain ⟨ihnd, ihmem⟩ := ih s' hv'
      constructor
      · rw [List.nodup_cons]
        refine ⟨?_, ihnd⟩
        intro hidmem
        obtain ⟨u1, hu1, hle1, hid1⟩ := ihmem id hidmem
        have hne : u0 ≠ u1 := by
          intro hequ
          rw [hequ] at hlt0
          omega
        exact candidate_inj d0 g.all hd0one hallone hd0nd hallnd u0 u1 hu0 hu1 hne
          (by rw [← hid0, ← hid1])
      · intro x hx
        rcases List.mem_cons.mp hx with hx | hx
        · exact ⟨u0, hu0, by omega, by rw [hx, hid0]⟩
        · obtain ⟨u1, hu1, hle1, hid1⟩ := ihmem x hx
          exact ⟨u1, hu1, by omega, hid1⟩

/-- C6 (amended): when every seed string is a single character — as with
the default alphanumeric seeds — the streams returned by `NewExported` and
`NewUnexported` never return the same id twice: the ids of any two distinct
calls are distinct.  (With multi-character seeds the stream can repeat —
see the counterexample.) -/
theorem generator_outputs_nodup (elements forbidden user : List GoStr)
    (fuel n1 n2 : Nat) (hone : ∀ e ∈ elements, e.length = 1) :
    (NewExportedOutputs (NewGenerator elements) forbidden fuel n1).Nodup ∧
    (NewUnexportedOutputs (NewGenerator elements) user fuel n2).Nodup := by
  have hok := newGenerator_ok elements
  obtain ⟨hlu1, hlmot1, hall1⟩ := newGenerator_single elements hone
  have hb : 0 < (NewGenerator elements).all.length := List.length_pos.mpr hok.allNe
  constructor
  · have hb0 : 0 < (NewGenerator elements).lu.length := List.length_pos.mpr hok.luNe
    have hvalid : validStack (NewGenerator elements).lu.length
        (NewGenerator elements).all.length [0] = true := by
      simp [validStack]
      omega
    exact (genOutputs_nodup_aux (NewGenerator elements) (NewGenerator elements).lu
      forbidden fuel hb0 hb hlu1 hall1 hok.luNodup hok.allNodup n1 [0] hvalid).1
  · have hb0 : 0 < (NewGenerator elements).lmot.length := List.length_pos.mpr hok.lmotNe
    have hvalid : validStack (NewGenerator elements).lmot.length
        (NewGenerator elements).all.length [0] = true := by
      simp [validStack]
      omega
    exact (genOutputs_nodup_aux (NewGenerator elements) (NewGenerator elements).lmot
      (forbiddenUnexported user) fuel hb0 hb hlmot1 hall1 hok.lmotNodup hok.allNodup
      n2 [0] hvalid).1

/-- Witness for `generator_outputs_nodup` with the single-character seeds
`A`, `b`, `0`. -/
theorem generator_outputs_nodup_witness :
    (NewExportedOutputs (NewGenerator [['A'], ['b'], ['0']]) [] 4 5).Nodup ∧
    (NewUnexportedOutputs (NewGenerator [['A'], ['b'], ['0']]) [] 4 5).Nodup :=
  generator_outputs_nodup [['A'], ['b'], ['0']] [] [] 4 5 5 (by decide)

end Go2Bad
